import Mathlib

/-!
Reference resolution and hierarchical assembly in vals.

A shallow embedding of the parts of `pkg/providers/awssecrets`,
`pkg/providers/httpjson`, `pkg/stringprovider` and `pkg/stringmapprovider`
that decide the behaviour of secret-reference resolution, together with the
hierarchical assembler of the parameter-store backend.

Conventions of the embedding:

* a Go `string` is a Lean `String`; the `strings` helpers are written over the
  list of characters (all separators used are ASCII, so cutting on characters
  and cutting on bytes agree);
* a Go `map[string]T` is an association list `List (String × T)` with at most
  one pair per key once built through `mapAssign`; ranging order is not used;
* a Go `(T, error)` result is `Except Error T`; errors are kept as structured
  values (the format and its arguments) instead of rendered messages;
* calls that leave the process (the secrets-manager client, the document
  loader, the YAML and URL libraries) are parameters of the model; the secrets
  adapter returns the ordered list of keys it fetched next to its result, and
  the document adapter threads a state holding its cache, the network and the
  log of loads attempted.
-/

namespace Vals

/-! ## Go runtime helpers -/

/-- Go `strings.TrimRight(s, cutset)`: drop every trailing character that occurs in `cutset`. -/
def TrimRight (s cutset : String) : String :=
  ⟨(s.data.reverse.dropWhile (fun c => cutset.data.contains c)).reverse⟩

/-- Go `strings.TrimLeft(s, cutset)`: drop every leading character that occurs in `cutset`. -/
def TrimLeft (s cutset : String) : String :=
  ⟨s.data.dropWhile (fun c => cutset.data.contains c)⟩

/-- Go `strings.TrimPrefix(s, prefix)`. -/
def TrimPrefix (s pre : String) : String :=
  if pre.data.isPrefixOf s.data then ⟨s.data.drop pre.data.length⟩ else s

/-- Go `m[k]` with the comma-ok form: the value stored under `k`, if any. -/
def mapIndex {α : Type} (m : List (String × α)) (k : String) : Option α :=
  match m with
  | [] => none
  | (k', v) :: rest => if k' = k then some v else mapIndex rest k

/-- Go `m[k] = v`: overwrite the value under `k`, or add the key. -/
def mapAssign {α : Type} (m : List (String × α)) (k : String) (v : α) : List (String × α) :=
  match m with
  | [] => [(k, v)]
  | (k', v') :: rest => if k' = k then (k, v) :: rest else (k', v') :: mapAssign rest k v

/-- Go `delete(m, k)`. -/
def mapDelete {α : Type} (m : List (String × α)) (k : String) : List (String × α) :=
  m.filter (fun kv => !(kv.1 == k))

/-- Keys of a Go map. -/
def mapKeys {α : Type} (m : List (String × α)) : List String := m.map Prod.fst

/-- Strict lexicographic order on character lists by code point (Go compares strings bytewise,
which on UTF-8 text is the same order). -/
def ltChars : List Char → List Char → Bool
  | [], [] => false
  | [], _ :: _ => true
  | _ :: _, [] => false
  | a :: as, b :: bs => if a.toNat < b.toNat then true else if b.toNat < a.toNat then false else ltChars as bs

/-- Insert a pair into a list of pairs sorted by first component. -/
def insertSorted (e : String × String) : List (String × String) → List (String × String)
  | [] => [e]
  | x :: xs => if ltChars e.1.data x.1.data then e :: x :: xs else x :: insertSorted e xs

/-- The pairs in lexicographic order of their first components. -/
def sortEntries (entries : List (String × String)) : List (String × String) :=
  entries.foldr insertSorted []

/-- A dynamically typed Go value (`interface{}`) as produced by decoding a YAML document, plus
`[]string`, which the type switch of the secrets adapter also names. `other` stands for the
remaining dynamic types (`float64`, timestamps), kept with their `%v` text. -/
inductive Value where
  | null
  | bool (b : Bool)
  | int (i : Int)
  | str (s : String)
  | other (shown : String)
  | strs (xs : List String)
  | seq (xs : List Value)
  | map (kvs : List (String × Value))

mutual
/-- Go `fmt.Sprintf("%v", v)`; a map is printed with its keys sorted. -/
def sprintV : Value → String
  | .null => "<nil>"
  | .bool b => if b then "true" else "false"
  | .int i => toString i
  | .str s => s
  | .other shown => shown
  | .strs xs => "[" ++ " ".intercalate xs ++ "]"
  | .seq xs => "[" ++ " ".intercalate (sprintVs xs) ++ "]"
  | .map kvs => "map[" ++ " ".intercalate ((sortEntries (sprintKVs kvs)).map Prod.snd) ++ "]"
/-- The `%v` text of each element of a sequence. -/
def sprintVs : List Value → List String
  | [] => []
  | v :: vs => sprintV v :: sprintVs vs
/-- The key and the `key:value` text of each pair of a map. -/
def sprintKVs : List (String × Value) → List (String × String)
  | [] => []
  | (k, v) :: kvs => (k, k ++ ":" ++ sprintV v) :: sprintKVs kvs
end

/-! ## pkg/providers/awssecrets -/

namespace awssecrets

/-- The request of `secretsmanager.GetSecretValue`. -/
structure GetSecretValueInput where
  SecretId : String
  VersionStage : Option String
  VersionId : Option String

/-- The fields of the response of `secretsmanager.GetSecretValue` that the adapter reads. -/
structure GetSecretValueOutput where
  SecretString : Option String
  SecretBinary : Option String

/-- The errors the adapter returns; each constructor is one `fmt.Errorf`/`errors.New` site or an
error passed through. -/
inductive Error where
  /-- Go `fmt.Errorf("get parameter: %v", err)` -/
  | getParameter (cause : String)
  /-- Go `errors.New("awssecrets: get secret value: no SecretString nor SecretBinary is set")` -/
  | noSecretValue
  /-- Go `fmt.Errorf("error while parsing secret for key %q as yaml: %v", key, err)` -/
  | parseYaml (key : String) (cause : String)
  /-- The error of `yaml.Unmarshal` on the meta document, returned as it is -/
  | unmarshal (cause : String)
  /-- Go `fmt.Errorf("%q not found", metaKeysField)` -/
  | notFound (field : String)
  /-- Go `fmt.Errorf("%q was not a kind of array: ...")` -/
  | notArray
  /-- Go `fmt.Errorf("%q was not a string array", metaKeysField)` -/
  | notStringArray (field : String)
  deriving DecidableEq

/-- The adapter's configuration fields. -/
structure provider where
  Region : String
  Profile : String
  RoleARN : String
  VersionStage : String
  VersionId : String
  Format : String

/-- The secrets-manager client: one blocking call, failing with the message of its error. -/
abbrev Client := GetSecretValueInput → Except String GetSecretValueOutput

/-- The decoder `yaml.Unmarshal` into a `map[string]interface{}`. -/
abbrev Unmarshal := String → Except String (List (String × Value))

/-- The well-known field of the meta document that lists the child-key suffixes. -/
def metaKeysField : String := "github.com/nateschererforks/vals"

/-- The method `provider.GetString`: fetch the scalar stored at `key` by one
`GetSecretValue` call of the secrets-manager client (the comment above it in the source speaks
of the parameter store; the call made is the secrets-manager one). -/
def GetString (cli : Client) (p : provider) (key : String) : Except Error String :=
  let in0 : GetSecretValueInput := { SecretId := key, VersionStage := none, VersionId := none }
  let in1 : GetSecretValueInput :=
    if p.VersionStage ≠ "" then { in0 with VersionStage := some p.VersionStage } else in0
  let in2 : GetSecretValueInput :=
    if p.VersionId ≠ "" then { in1 with VersionId := some p.VersionId } else in1
  match cli in2 with
  | .error err => .error (.getParameter err)
  | .ok out =>
    match out.SecretString with
    | some s => .ok s
    | none =>
      match out.SecretBinary with
      | some b => .ok b
      | none => .error .noSecretValue

/-- The type switch of `GetStringMap` on the value of the meta field: the suffixes, or `none`
for the `default` case. -/
def suffixesOf : Value → Option (List String)
  | .strs f => some f
  | .seq f => some (f.map sprintV)
  | _ => none

/-- The loop `for _, suf := range suffixes` of `GetStringMap`, started with the mapping built so
far. Returns the keys fetched, in order, and the outcome. -/
def fetchSuffixes (cli : Client) (p : provider) (key : String) :
    List String → List (String × Value) → List String × Except Error (List (String × Value))
  | [], res => ([], .ok res)
  | suf :: rest, res =>
    let sufKey := TrimLeft suf "/"
    let full := TrimRight key "/" ++ "/" ++ sufKey
    match GetString cli p full with
    | .error err => ([full], .error err)
    | .ok str =>
      let r := fetchSuffixes cli p key rest (mapAssign res sufKey (.str str))
      (full :: r.1, r.2)

/-- Go `provider.GetStringMap`. The first component lists the keys handed to `GetString`, in call
order. (The second `if !ok` test of the source follows a successful lookup and is never taken.) -/
def GetStringMap (cli : Client) (unmarshal : Unmarshal) (p : provider) (key : String) :
    List String × Except Error (List (String × Value)) :=
  match GetString cli p key with
  | .ok yamlStr =>
    match unmarshal yamlStr with
    | .error err => ([key], .error (.parseYaml key err))
    | .ok m => ([key], .ok m)
  | .error _ =>
    let metaKey := TrimRight key "/" ++ "/meta"
    match GetString cli p metaKey with
    | .error err => ([key, metaKey], .error err)
    | .ok str =>
      match unmarshal str with
      | .error err => ([key, metaKey], .error (.unmarshal err))
      | .ok meta =>
        match mapIndex meta metaKeysField with
        | none => ([key, metaKey], .error (.notFound metaKeysField))
        | some f =>
          match suffixesOf f with
          | none => ([key, metaKey], .error .notArray)
          | some suffixes =>
            let r := fetchSuffixes cli p key suffixes []
            (key :: metaKey :: r.1, r.2)

end awssecrets

/-! ## Sample data -/

namespace Sample

open awssecrets

/-- A provider with every option left empty. -/
def plain : provider :=
  { Region := "", Profile := "", RoleARN := "", VersionStage := "", VersionId := "", Format := "" }

/-- A secret store given by a lookup table from secret id to secret string. -/
def store (tbl : List (String × String)) : Client := fun i =>
  match mapIndex tbl i.SecretId with
  | some s => .ok { SecretString := some s, SecretBinary := none }
  | none => .error "ResourceNotFoundException"

/-- A decoder given by a lookup table from document text to decoded mapping. -/
def decoder (tbl : List (String × List (String × Value))) : Unmarshal := fun s =>
  match mapIndex tbl s with
  | some m => .ok m
  | none => .error "yaml: unmarshal errors"

end Sample


/-! ## pkg/providers/httpjson -/

namespace httpjson

/-- The errors the adapter returns, one constructor per `fmt.Errorf` site; `panic` stands for a Go
run-time panic (index out of range, nil dereference, failed type assertion). -/
inductive Error where
  /-- Message `"no xpath expression found in uri: %s"` -/
  | noXpath (uri : String)
  /-- Message `"unable to compile xpath expression '%s' from uri: %s"` -/
  | compileXpath (expr uri : String)
  /-- Message `"invalid URL: %s, error: %s"` -/
  | invalidURL (fullURL cause : String)
  /-- Message `"no domain found in uri: %s"` -/
  | noDomain (uri : String)
  /-- Message `"error fetching json document at %v: %v"` -/
  | fetchDoc (url cause : String)
  /-- Message `"error querying the xpath expression %s, error: %s"` -/
  | query (xpath cause : String)
  /-- Message `"unable to query doc for value with xpath query using %v"` -/
  | noNode (uri : String)
  /-- Message `"location %v has child nodes at %v, please use a more granular query"` -/
  | childNodes (xpath url : String)
  /-- Message `"unable to convert possible float to int for value: %v"` -/
  | floatConv (value : String)
  /-- Message `"we should not be in the GetStringMap method"` -/
  | inGetStringMap
  | panic
  deriving DecidableEq

/-- Go `strings.Split(s, "#/")` over the characters of `s`; `acc` is the current piece, reversed.
Occurrences of the separator are found left to right and do not overlap. -/
def splitHashSlash : List Char → List Char → List String
  | [], acc => [⟨acc.reverse⟩]
  | [c], acc => [⟨(c :: acc).reverse⟩]
  | c :: d :: rest, acc =>
    if c = '#' ∧ d = '/' then ⟨acc.reverse⟩ :: splitHashSlash rest []
    else splitHashSlash (d :: rest) (c :: acc)

/-- Go `GetXpathFromUri`; `compile` is `xpath.Compile`, of which only success or failure is used.
At the second `fmt.Errorf` the named result `xpathExpression` is still empty. -/
def GetXpathFromUri (compile : String → Except String Unit) (uri : String) : Except Error String :=
  let paths := splitHashSlash uri.data []
  match paths with
  | [] => .error .panic
  | [_] => .error (.noXpath uri)
  | _ :: p1 :: _ =>
    match compile p1 with
    | .error _ => .error (.compileXpath "" uri)
    | .ok _ => .ok p1

/-- The part of `net/url` that `GetUrlFromUri` uses, over the library's URL type `U`. -/
structure UrlLib (U : Type) where
  /-- Go `url.Parse` -/
  Parse : String → Except String U
  /-- The field `Host` -/
  Host : U → String
  /-- The method `Query()`, a `url.Values` -/
  Query : U → List (String × List String)
  /-- Go `Values.Encode()` -/
  Encode : List (String × List String) → String
  /-- Assignment to the field `RawQuery` -/
  setRawQuery : U → String → U
  /-- The method `String()` -/
  render : U → String

/-- Go `GetUrlFromUri`. -/
def GetUrlFromUri {U : Type} (lib : UrlLib U) (uri protocol : String) : Except Error String :=
  let trimmedUrl := TrimPrefix uri "httpjson://"
  let trimmedUrl := (splitHashSlash trimmedUrl.data []).headD ""
  let fullURL := protocol ++ "://" ++ trimmedUrl
  match lib.Parse fullURL with
  | .error parseErr => .error (.invalidURL fullURL parseErr)
  | .ok parsedUrl =>
    if lib.Host parsedUrl = "" then .error (.noDomain uri)
    else
      let query := ["insecure", "floatAsInt"].foldl mapDelete (lib.Query parsedUrl)
      .ok (lib.render (lib.setRawQuery parsedUrl (lib.Encode query)))

/-- A child of a `jsonquery.Node`: its `Data`, and its `Value()` when that is a string. -/
structure Child where
  Data : String
  Value : Option String

/-- The view of a `jsonquery.Node` that `GetString` takes: the list of its children. -/
structure Node where
  children : List Child

/-- Go `countChildNodes`. -/
def countChildNodes (node : Node) : Nat := node.children.length

/-- Go `child.Value().(string)` for each child in turn; `none` when an assertion panics. -/
def childValues : List Child → Option (List String)
  | [] => some []
  | c :: cs =>
    match c.Value, childValues cs with
    | some v, some vs => some (v :: vs)
    | _, _ => none

/-- The adapter: the document cache, the protocol and the float flag. -/
structure provider (Doc : Type) where
  docs : List (String × Doc)
  protocol : String
  floatAsInt : Bool

/-- Go `New`; `cfgString` is `cfg.String`. -/
def New {Doc : Type} (cfgString : String → String) : provider Doc :=
  { docs := []
    protocol := if cfgString "insecure" = "true" then "http" else "https"
    floatAsInt := if cfgString "floatAsInt" = "true" then true else false }

/-- What the adapter calls outside itself: the document loader over a network state `W`, the
expression compiler, the document query, the URL library, and the float rendering
`fmt.Sprintf("%.0f", strconv.ParseFloat(s, 64))` (`none` when parsing fails). -/
structure Env (W Doc U : Type) where
  LoadURL : W → String → Except String Doc × W
  Compile : String → Except String Unit
  Query : Doc → String → Except String (Option Node)
  url : UrlLib U
  FormatFloat0 : String → Option String

/-- The adapter together with the network it talks to and the log of document loads attempted so
far (oldest first), each with whether it succeeded. -/
structure State (W Doc : Type) where
  p : provider Doc
  net : W
  log : List (String × Bool)

/-- Go `provider.GetJsonDoc`. -/
def GetJsonDoc {W Doc U : Type} (env : Env W Doc U) (s : State W Doc) (url : String) :
    Except Error Unit × State W Doc :=
  match mapIndex s.p.docs url with
  | some _ => (.ok (), s)
  | none =>
    match env.LoadURL s.net url with
    | (.error err, net') =>
      (.error (.fetchDoc url err), { s with net := net', log := s.log ++ [(url, false)] })
    | (.ok doc, net') =>
      (.ok (), { p := { s.p with docs := mapAssign s.p.docs url doc }, net := net',
                 log := s.log ++ [(url, true)] })

/-- The part of `provider.GetString` after the expression has been obtained: query the cached
document and render the value. -/
def queryValue {W Doc U : Type} (env : Env W Doc U) (p : provider Doc) (uri url xpathQuery : String) :
    Except Error String :=
  match mapIndex p.docs url with
  | none => .error .panic
  | some doc =>
    match env.Query doc xpathQuery with
    | .error err => .error (.query xpathQuery err)
    | .ok none => .error (.noNode uri)
    | .ok (some node) =>
      match node.children.head?, node.children.getLast? with
      | some first, some last =>
        if first.Data ≠ last.Data then .error (.childNodes xpathQuery url)
        else
          let returnValue : Option String :=
            if countChildNodes node > 1 then (childValues node.children).map (",".intercalate)
            else first.Value
          match returnValue with
          | none => .error .panic
          | some returnValue =>
            if p.floatAsInt then
              match env.FormatFloat0 returnValue with
              | none => .error (.floatConv returnValue)
              | some r => .ok r
            else .ok returnValue
      | _, _ => .error .panic

/-- Go `provider.GetString`. -/
def GetString {W Doc U : Type} (env : Env W Doc U) (s : State W Doc) (uri : String) :
    Except Error String × State W Doc :=
  match GetUrlFromUri env.url uri s.p.protocol with
  | .error err => (.error err, s)
  | .ok url =>
    match GetJsonDoc env s url with
    | (.error err, s₁) => (.error err, s₁)
    | (.ok _, s₁) =>
      match GetXpathFromUri env.Compile uri with
      | .error err => (.error err, s₁)
      | .ok xpathQuery => (queryValue env s₁.p uri url xpathQuery, s₁)

/-- Go `provider.GetStringMap`. -/
def GetStringMap (_key : String) : Except Error (List (String × Value)) :=
  .error .inGetStringMap

/-- A run of `GetJsonDoc` calls on one provider, one per URL of the list, whatever each returns. -/
def getJsonDocs {W Doc U : Type} (env : Env W Doc U) (s : State W Doc) : List String → State W Doc
  | [] => s
  | url :: rest => getJsonDocs env (GetJsonDoc env s url).2 rest

end httpjson

/-! ## pkg/stringprovider and pkg/stringmapprovider -/

/-- A static configuration (`api.StaticConfig`) as the key/value pairs it was built from. -/
abbrev StaticConfig := List (String × String)

/-- The method `String` of a static configuration: the value under the key, or the empty string. -/
def StaticConfig.String (cfg : StaticConfig) (key : String) : String :=
  (mapIndex cfg key).getD ""

/-- The constructors `New` of the backend packages under `pkg/providers`, with the extra argument
where one is passed (`tfstate.New(provider, backend)`, `pulumi.New(l, provider, backend)`). -/
inductive Backend where
  | s3 | gcs | ssm | vault | awskms | awssecrets | sops | gcpsecrets
  | tfstate (backend : String)
  | azurekeyvault | gitlab | onepassword | onepasswordconnect | doppler
  | pulumi (backend : String)
  | gkms | k8s | conjur | hcpvaultsecrets | httpjson
  deriving DecidableEq

/-- The errors of the two registries. -/
inductive RegistryError where
  /-- Message `"failed initializing string provider from config: %v"` -/
  | stringProvider (provider : StaticConfig)
  /-- Message `"failed initializing string-map provider from config: %v"` -/
  | stringMapProvider (provider : StaticConfig)
  /-- The error of `k8s.New`, passed on -/
  | k8s (cause : String)
  deriving DecidableEq

/-- The outcome of a registry lookup: the backend constructors invoked, in order, and either the
backend whose constructor built the provider or an error. -/
abbrev Resolved := List Backend × Except RegistryError Backend

/-- A constructor that cannot fail: `return pkg.New(...), nil`. -/
def construct (b : Backend) : Resolved := ([b], .ok b)

/-- The constructor of the k8s backend: `return k8s.New(l, provider)`. -/
def constructK8s (k8sNew : StaticConfig → Except String Unit) (provider : StaticConfig) : Resolved :=
  match k8sNew provider with
  | .ok _ => ([Backend.k8s], .ok Backend.k8s)
  | .error e => ([Backend.k8s], .error (.k8s e))

namespace stringprovider

/-- Go `stringprovider.New`. -/
def New (k8sNew : StaticConfig → Except String Unit) (provider : StaticConfig) : Resolved :=
  let tpe := provider.String "name"
  if tpe = "s3" then construct .s3
  else if tpe = "gcs" then construct .gcs
  else if tpe = "ssm" then construct .ssm
  else if tpe = "vault" then construct .vault
  else if tpe = "awskms" then construct .awskms
  else if tpe = "awssecrets" then construct .awssecrets
  else if tpe = "sops" then construct .sops
  else if tpe = "gcpsecrets" then construct .gcpsecrets
  else if tpe = "tfstate" then construct (.tfstate "")
  else if tpe = "tfstategs" then construct (.tfstate "gs")
  else if tpe = "tfstates3" then construct (.tfstate "s3")
  else if tpe = "tfstateazurerm" then construct (.tfstate "azurerm")
  else if tpe = "tfstateremote" then construct (.tfstate "remote")
  else if tpe = "azurekeyvault" then construct .azurekeyvault
  else if tpe = "gitlab" then construct .gitlab
  else if tpe = "onepassword" then construct .onepassword
  else if tpe = "onepasswordconnect" then construct .onepasswordconnect
  else if tpe = "doppler" then construct .doppler
  else if tpe = "pulumistateapi" then construct (.pulumi "pulumistateapi")
  else if tpe = "gkms" then construct .gkms
  else if tpe = "k8s" then constructK8s k8sNew provider
  else if tpe = "conjur" then construct .conjur
  else if tpe = "hcpvaultsecrets" then construct .hcpvaultsecrets
  else if tpe = "httpjson" then construct .httpjson
  else ([], .error (.stringProvider provider))

/-- The tags of the `case` labels of `stringprovider.New`. -/
def tags : List String :=
  ["s3", "gcs", "ssm", "vault", "awskms", "awssecrets", "sops", "gcpsecrets", "tfstate",
   "tfstategs", "tfstates3", "tfstateazurerm", "tfstateremote", "azurekeyvault", "gitlab",
   "onepassword", "onepasswordconnect", "doppler", "pulumistateapi", "gkms", "k8s", "conjur",
   "hcpvaultsecrets", "httpjson"]

end stringprovider

namespace stringmapprovider

/-- Go `stringmapprovider.New`. -/
def New (k8sNew : StaticConfig → Except String Unit) (provider : StaticConfig) : Resolved :=
  let tpe := provider.String "name"
  if tpe = "s3" then construct .ssm
  else if tpe = "ssm" then construct .ssm
  else if tpe = "vault" then construct .vault
  else if tpe = "awssecrets" then construct .awssecrets
  else if tpe = "sops" then construct .sops
  else if tpe = "gcpsecrets" then construct .gcpsecrets
  else if tpe = "azurekeyvault" then construct .azurekeyvault
  else if tpe = "awskms" then construct .awskms
  else if tpe = "onepasswordconnect" then construct .onepasswordconnect
  else if tpe = "doppler" then construct .doppler
  else if tpe = "gkms" then construct .gkms
  else if tpe = "k8s" then constructK8s k8sNew provider
  else if tpe = "httpjson" then construct .httpjson
  else ([], .error (.stringMapProvider provider))

/-- The tags of the `case` labels of `stringmapprovider.New`. -/
def tags : List String :=
  ["s3", "ssm", "vault", "awssecrets", "sops", "gcpsecrets", "azurekeyvault", "awskms",
   "onepasswordconnect", "doppler", "gkms", "k8s", "httpjson"]

end stringmapprovider

/-! ## Hierarchical assembler (pkg/providers/ssm) -/

namespace ssm

/-- The errors of the assembler. -/
inductive Error where
  | notFound
  deriving DecidableEq

/-- Cut a path at every "/"; `acc` is the current segment, reversed. -/
def splitSlash : List Char → List Char → List String
  | [], acc => [⟨acc.reverse⟩]
  | c :: cs, acc => if c = '/' then ⟨acc.reverse⟩ :: splitSlash cs [] else splitSlash cs (c :: acc)

/-- Modelled from the spec: step 1 of the hierarchical assembler, whose source (`ssm.go`) is not
among the files at hand. Strip the root prefix from an entry's path to obtain the relative path
and split it into its ordered, non-empty segments. -/
def relSegments (root path : String) : List String :=
  (splitSlash (TrimPrefix path root).data []).filter (fun seg => seg ≠ "")

/-- The pairs of a node that is a mapping; no pairs for a scalar or for nothing. -/
def entriesOf : Option Value → List (String × Value)
  | some (.map m) => m
  | _ => []

/-- Modelled from the spec: steps 2 and 3 of the hierarchical assembler, whose source (`ssm.go`)
is not among the files at hand. Place the value `v` at the segment path below the node `node`
(`none`: nothing there yet): every node on the way is walked into, or created, as a mapping, a
scalar found there being discarded; at the end of the path the value is set, unless the location
already is a mapping holding children, which take precedence. -/
def setNode : List String → String → Option Value → Value
  | [], _, some (.map m) => .map m
  | [], v, _ => .str v
  | k :: rest, v, node =>
    .map (mapAssign (entriesOf node) k (setNode rest v (mapIndex (entriesOf node) k)))

/-- Modelled from the spec: one entry of the flat set is placed into the mapping built so far (the
source, `ssm.go`, is not among the files at hand); an entry at the root itself leaves the mapping
as it is. -/
def insertEntry (m : List (String × Value)) (segs : List String) (v : String) :
    List (String × Value) :=
  match segs with
  | [] => m
  | k :: rest => mapAssign m k (setNode rest v (mapIndex m k))

/-- Modelled from the spec: the hierarchical assembler of section 4.4 (steps 1 to 5), whose source
(`ssm.go`, `GetStringMap` with `recursive=true`) is not among the files at hand. The entries are
processed in lexicographic path order; an empty entry set is an error. -/
def Assemble (root : String) (entries : List (String × String)) :
    Except Error (List (String × Value)) :=
  if entries.isEmpty then .error .notFound
  else .ok ((sortEntries entries).foldl (fun m e => insertEntry m (relSegments root e.1) e.2) [])

/-- The node found at a segment path below a node, if any. -/
def getNode : List String → Option Value → Option Value
  | [], node => node
  | k :: rest, node => getNode rest (mapIndex (entriesOf node) k)

/-- The node found at a segment path in a nested mapping, if any. -/
def lookupPath (m : List (String × Value)) (segs : List String) : Option Value :=
  getNode segs (some (.map m))

/-- The segments `s1, ..., sn` written as the relative path `s1/.../sn`. -/
def joinSegments : List String → List Char
  | [] => []
  | [s] => s.data
  | s :: rest => s.data ++ '/' :: joinSegments rest

/-- The absolute path `root/s1/.../sn` of the location that lies below `root` at the segments
`s1, ..., sn`. -/
def entryPath (root : String) (segs : List String) : String :=
  ⟨root.data ++ '/' :: joinSegments segs⟩

end ssm

/-! ## Sample data for the document adapter -/

namespace Sample

open httpjson

/-- A parsed URL of the sample URL library: its text without the query, its host, its raw query. -/
structure Url where
  text : String
  host : String
  rawQuery : String

/-- A URL library that knows the URLs of a table (full URL without query, and its host) and
parses nothing else; the URLs of the table carry no query. -/
def urlLib (known : List (String × String)) : UrlLib Url where
  Parse := fun fullURL =>
    match mapIndex known fullURL with
    | some h => .ok { text := fullURL, host := h, rawQuery := "" }
    | none => .error "parse error"
  Host := fun u => u.host
  Query := fun _ => []
  Encode := fun _ => ""
  setRawQuery := fun u q => { u with rawQuery := q }
  render := fun u => if u.rawQuery = "" then u.text else u.text ++ "?" ++ u.rawQuery

/-- A network serving the documents of a table; its state counts the requests made. An expression
compiles unless it is empty. -/
def httpEnv (site : List (String × String)) : Env Nat String Url where
  LoadURL := fun n url =>
    match mapIndex site url with
    | some doc => (.ok doc, n + 1)
    | none => (.error "404", n + 1)
  Compile := fun expr => if expr = "" then .error "expr expression is nil" else .ok ()
  Query := fun _ _ => .ok none
  url := urlLib [("https://example.com/doc.json", "example.com")]
  FormatFloat0 := fun _ => none

/-- A fresh adapter with the default configuration, before any request. -/
def fresh : State Nat String := { p := New (fun _ => ""), net := 0, log := [] }

end Sample
/-! ## Lemmas on Go maps -/

theorem mapIndex_mapAssign_self {α : Type} (m : List (String × α)) (k : String) (v : α) :
    mapIndex (mapAssign m k v) k = some v := by
  induction m with
  | nil => simp [mapAssign, mapIndex]
  | cons kv rest ih =>
    obtain ⟨k', v'⟩ := kv
    by_cases h : k' = k
    · simp [mapAssign, mapIndex, h]
    · simp [mapAssign, mapIndex, h, ih]

theorem mapIndex_mapAssign_of_ne {α : Type} (m : List (String × α)) {k k' : String} (v : α)
    (h : k' ≠ k) : mapIndex (mapAssign m k v) k' = mapIndex m k' := by
  induction m with
  | nil => simp [mapAssign, mapIndex, Ne.symm h]
  | cons kv rest ih =>
    obtain ⟨k₁, v₁⟩ := kv
    by_cases h₁ : k₁ = k
    · subst h₁
      simp [mapAssign, mapIndex, Ne.symm h]
    · by_cases h₂ : k₁ = k'
      · subst h₂
        simp [mapAssign, mapIndex, h]
      · simp [mapAssign, mapIndex, h₁, h₂, ih]

theorem mem_mapKeys_mapAssign {α : Type} (m : List (String × α)) (k k' : String) (v : α) :
    k' ∈ mapKeys (mapAssign m k v) ↔ k' = k ∨ k' ∈ mapKeys m := by
  induction m with
  | nil => simp [mapAssign, mapKeys]
  | cons kv rest ih =>
    obtain ⟨k₁, v₁⟩ := kv
    by_cases h₁ : k₁ = k
    · subst h₁
      simp [mapAssign, mapKeys]
    · simp only [mapKeys] at ih
      simp [mapAssign, mapKeys, h₁, ih]
      tauto

theorem nodup_mapKeys_mapAssign {α : Type} (m : List (String × α)) (k : String) (v : α)
    (h : (mapKeys m).Nodup) : (mapKeys (mapAssign m k v)).Nodup := by
  induction m with
  | nil => simp [mapAssign, mapKeys]
  | cons kv rest ih =>
    obtain ⟨k₁, v₁⟩ := kv
    have hk : k₁ ∉ mapKeys rest := by
      simpa [mapKeys] using (List.nodup_cons.mp h).1
    have hr : (mapKeys rest).Nodup := (List.nodup_cons.mp h).2
    by_cases h₁ : k₁ = k
    · subst h₁
      simpa [mapAssign, mapKeys] using h
    · have hmem := mem_mapKeys_mapAssign rest k k₁ v
      have hnot : k₁ ∉ mapKeys (mapAssign rest k v) := by
        rw [hmem]; tauto
      have := ih hr
      simp only [mapAssign, h₁, if_false, mapKeys, List.map_cons, List.nodup_cons]
      exact ⟨by simpa [mapKeys] using hnot, by simpa [mapKeys] using this⟩

theorem mapIndex_eq_none_iff {α : Type} (m : List (String × α)) (k : String) :
    mapIndex m k = none ↔ k ∉ mapKeys m := by
  induction m with
  | nil => simp [mapIndex, mapKeys]
  | cons kv rest ih =>
    obtain ⟨k₁, v₁⟩ := kv
    by_cases h₁ : k₁ = k
    · simp [mapIndex, mapKeys, h₁]
    · simp only [mapKeys] at ih
      simp [mapIndex, mapKeys, h₁, ih, Ne.symm h₁]

theorem mem_of_mapIndex_eq_some {α : Type} (m : List (String × α)) (k : String) (v : α)
    (h : mapIndex m k = some v) : (k, v) ∈ m := by
  induction m with
  | nil => simp [mapIndex] at h
  | cons kv rest ih =>
    obtain ⟨k₁, v₁⟩ := kv
    by_cases h₁ : k₁ = k
    · simp [mapIndex, h₁] at h
      simp [h₁, h]
    · simp [mapIndex, h₁] at h
      exact List.mem_cons_of_mem _ (ih h)

theorem mapIndex_of_mem_nodup {α : Type} (m : List (String × α)) (k : String) (v : α)
    (hn : (mapKeys m).Nodup) (h : (k, v) ∈ m) : mapIndex m k = some v := by
  induction m with
  | nil => simp at h
  | cons kv rest ih =>
    obtain ⟨k₁, v₁⟩ := kv
    have hk : k₁ ∉ mapKeys rest := by
      simpa [mapKeys] using (List.nodup_cons.mp hn).1
    have hr : (mapKeys rest).Nodup := (List.nodup_cons.mp hn).2
    rcases List.mem_cons.mp h with heq | hmem
    · cases heq
      simp [mapIndex]
    · have hne : k₁ ≠ k := by
        rintro rfl
        exact hk (List.mem_map_of_mem Prod.fst hmem)
      simp [mapIndex, hne, ih hr hmem]

theorem mem_mapAssign {α : Type} (m : List (String × α)) (k k' : String) (v v' : α)
    (h : (k', v') ∈ mapAssign m k v) : (k' = k ∧ v' = v) ∨ (k', v') ∈ m := by
  induction m with
  | nil => simpa [mapAssign] using h
  | cons kv rest ih =>
    obtain ⟨k₁, v₁⟩ := kv
    by_cases h₁ : k₁ = k
    · simp [mapAssign, h₁] at h
      rcases h with h | h
      · exact Or.inl h
      · exact Or.inr (List.mem_cons_of_mem _ h)
    · simp [mapAssign, h₁] at h
      rcases h with h | h
      · exact Or.inr (by simp [h])
      · rcases ih h with h | h
        · exact Or.inl h
        · exact Or.inr (List.mem_cons_of_mem _ h)

/-- Keys of a mapping built by assigning `g (f s)` under `f s` for each `s` of a list. -/
theorem mem_mapKeys_foldl_assign {α : Type} (f : String → String) (g : String → α) :
    ∀ (ss : List String) (res : List (String × α)) (k : String),
      k ∈ mapKeys (ss.foldl (fun acc s => mapAssign acc (f s) (g (f s))) res) ↔
        k ∈ ss.map f ∨ k ∈ mapKeys res := by
  intro ss
  induction ss with
  | nil => intro res k; simp
  | cons s rest ih =>
    intro res k
    simp only [List.foldl_cons, List.map_cons, List.mem_cons]
    rw [ih, mem_mapKeys_mapAssign]
    tauto

theorem nodup_mapKeys_foldl_assign {α : Type} (f : String → String) (g : String → α) :
    ∀ (ss : List String) (res : List (String × α)), (mapKeys res).Nodup →
      (mapKeys (ss.foldl (fun acc s => mapAssign acc (f s) (g (f s))) res)).Nodup := by
  intro ss
  induction ss with
  | nil => intro res h; simpa using h
  | cons s rest ih =>
    intro res h
    simp only [List.foldl_cons]
    exact ih _ (nodup_mapKeys_mapAssign res _ _ h)

theorem mapIndex_foldl_assign_of_not_mem {α : Type} (f : String → String) (g : String → α) :
    ∀ (ss : List String) (res : List (String × α)) (k : String), k ∉ ss.map f →
      mapIndex (ss.foldl (fun acc s => mapAssign acc (f s) (g (f s))) res) k = mapIndex res k := by
  intro ss
  induction ss with
  | nil => intro res k _; simp
  | cons s rest ih =>
    intro res k hk
    simp only [List.map_cons, List.mem_cons, not_or] at hk
    simp only [List.foldl_cons]
    rw [ih _ _ hk.2, mapIndex_mapAssign_of_ne _ _ hk.1]

theorem mapIndex_foldl_assign_of_mem {α : Type} (f : String → String) (g : String → α) :
    ∀ (ss : List String) (res : List (String × α)) (k : String), k ∈ ss.map f →
      mapIndex (ss.foldl (fun acc s => mapAssign acc (f s) (g (f s))) res) k = some (g k) := by
  intro ss
  induction ss with
  | nil => intro res k hk; simp at hk
  | cons s rest ih =>
    intro res k hk
    simp only [List.foldl_cons]
    by_cases hrest : k ∈ rest.map f
    · exact ih _ _ hrest
    · have hks : k = f s := by
        simp only [List.map_cons, List.mem_cons] at hk
        rcases hk with h | h
        · exact h
        · exact absurd h hrest
      rw [mapIndex_foldl_assign_of_not_mem f g rest _ k hrest, hks, mapIndex_mapAssign_self]

namespace awssecrets

/-! ## awssecrets: the suffix loop -/

theorem fetchSuffixes_ok (cli : Client) (p : provider) (key : String) (v : String → String) :
    ∀ (ss : List String) (res : List (String × Value)),
      (∀ s ∈ ss, GetString cli p (TrimRight key "/" ++ "/" ++ TrimLeft s "/")
        = .ok (v (TrimLeft s "/"))) →
      fetchSuffixes cli p key ss res =
        (ss.map (fun s => TrimRight key "/" ++ "/" ++ TrimLeft s "/"),
         .ok (ss.foldl (fun acc s =>
           mapAssign acc (TrimLeft s "/") (Value.str (v (TrimLeft s "/")))) res)) := by
  intro ss
  induction ss with
  | nil => intro res _; simp [fetchSuffixes]
  | cons s rest ih =>
    intro res h
    have hs := h s (List.mem_cons_self _ _)
    have hrest := ih (mapAssign res (TrimLeft s "/") (Value.str (v (TrimLeft s "/"))))
      (fun t ht => h t (List.mem_cons_of_mem _ ht))
    simp [fetchSuffixes, hs, hrest]

theorem fetchSuffixes_error (cli : Client) (p : provider) (key : String) :
    ∀ (pre : List String) (s : String) (post : List String) (e : Error)
      (res : List (String × Value)),
      (∀ t ∈ pre, ∃ v, GetString cli p (TrimRight key "/" ++ "/" ++ TrimLeft t "/") = .ok v) →
      GetString cli p (TrimRight key "/" ++ "/" ++ TrimLeft s "/") = .error e →
      fetchSuffixes cli p key (pre ++ s :: post) res =
        (pre.map (fun t => TrimRight key "/" ++ "/" ++ TrimLeft t "/")
          ++ [TrimRight key "/" ++ "/" ++ TrimLeft s "/"], .error e) := by
  intro pre
  induction pre with
  | nil => intro s post e res _ hs; simp [fetchSuffixes, hs]
  | cons t rest ih =>
    intro s post e res hpre hs
    obtain ⟨v, hv⟩ := hpre t (List.mem_cons_self _ _)
    have hrest := ih s post e (mapAssign res (TrimLeft t "/") (Value.str v))
      (fun u hu => hpre u (List.mem_cons_of_mem _ hu)) hs
    simp [fetchSuffixes, hv, hrest]

theorem fetchSuffixes_sound (cli : Client) (p : provider) (key : String) :
    ∀ (ss : List String) (res : List (String × Value)) (out : List (String × Value)),
      (fetchSuffixes cli p key ss res).2 = .ok out →
      ∀ k val, (k, val) ∈ out → (k, val) ∈ res ∨
        ∃ x, val = Value.str x ∧ GetString cli p (TrimRight key "/" ++ "/" ++ k) = .ok x := by
  intro ss
  induction ss with
  | nil =>
    intro res out h k val hk
    simp [fetchSuffixes] at h
    subst h
    exact Or.inl hk
  | cons s rest ih =>
    intro res out h k val hk
    cases hG : GetString cli p (TrimRight key "/" ++ "/" ++ TrimLeft s "/") with
    | error e => simp [fetchSuffixes, hG] at h
    | ok str =>
      simp only [fetchSuffixes, hG] at h
      rcases ih _ out h k val hk with hmem | hfetch
      · rcases mem_mapAssign _ _ _ _ _ hmem with ⟨hk', hv'⟩ | hres
        · subst hk'
          exact Or.inr ⟨str, hv', hG⟩
        · exact Or.inl hres
      · exact Or.inr hfetch

theorem suffixesOf_seq_str (ss : List String) :
    suffixesOf (Value.seq (ss.map Value.str)) = some ss := by
  have : ∀ l : List String, List.map sprintV (List.map Value.str l) = l := by
    intro l
    induction l with
    | nil => rfl
    | cons a l ih => simp [sprintV, ih]
  simp [suffixesOf, this]

theorem GetStringMap_meta (cli : Client) (unmarshal : Unmarshal) (p : provider) (key : String)
    (e₀ : Error) (doc : String) (meta : List (String × Value)) (f : Value) (ss : List String)
    (hroot : GetString cli p key = .error e₀)
    (hmeta : GetString cli p (TrimRight key "/" ++ "/meta") = .ok doc)
    (hdec : unmarshal doc = .ok meta)
    (hfield : mapIndex meta metaKeysField = some f)
    (hsuf : suffixesOf f = some ss) :
    GetStringMap cli unmarshal p key =
      (key :: (TrimRight key "/" ++ "/meta") :: (fetchSuffixes cli p key ss []).1,
       (fetchSuffixes cli p key ss []).2) := by
  simp [GetStringMap, hroot, hmeta, hdec, hfield, hsuf]

end awssecrets

/-! ## awssecrets: claims on `GetStringMap` -/

namespace awssecrets

/-- C1 (as stated) does not hold: with the meta field listing the suffix "/x" and the scalar at
R + "/" + "/x" fetchable, `GetStringMap` does not return a mapping keyed by the suffix as listed;
the key it uses is "x". -/
theorem meta_expansion_keyed_as_listed_fails :
    ¬ (∀ (cli : Client) (unmarshal : Unmarshal) (p : provider) (key : String) (e₀ : Error)
        (doc : String) (meta : List (String × Value)) (ss : List String) (v : String → String),
        GetString cli p key = .error e₀ →
        GetString cli p (key ++ "/meta") = .ok doc →
        unmarshal doc = .ok meta →
        mapIndex meta metaKeysField = some (Value.seq (ss.map Value.str)) →
        (∀ s ∈ ss, GetString cli p (key ++ "/" ++ s) = .ok (v s)) →
        ∃ res, (GetStringMap cli unmarshal p key).2 = .ok res ∧
          (∀ s ∈ ss, mapIndex res s = some (Value.str (v s))) ∧
          (∀ k ∈ mapKeys res, k ∈ ss)) := by
  intro h
  obtain ⟨res, hres, hidx, _⟩ :=
    h (Sample.store [("r/meta", "M"), ("r//x", "X"), ("r/x", "X")])
      (Sample.decoder [("M", [(metaKeysField, Value.seq [Value.str "/x"])])])
      Sample.plain "r" (.getParameter "ResourceNotFoundException") "M"
      [(metaKeysField, Value.seq [Value.str "/x"])] ["/x"] (fun _ => "X")
      rfl rfl rfl rfl (by intro s hs; simp at hs; subst hs; rfl)
  have hrun : (GetStringMap (Sample.store [("r/meta", "M"), ("r//x", "X"), ("r/x", "X")])
      (Sample.decoder [("M", [(metaKeysField, Value.seq [Value.str "/x"])])])
      Sample.plain "r").2 = .ok [("x", Value.str "X")] := rfl
  rw [hrun] at hres
  cases hres
  have := hidx "/x" (by simp)
  simp [mapIndex] at this

/-- C1 (amended): when `GetStringMap` performs meta-key expansion for R, the meta document decodes
to a mapping whose meta field is the sequence s1..sn, and the scalar fetch at
TrimRight(R, "/") + "/" + TrimLeft(si, "/") returns the value for each i, then `GetStringMap`
fetches R, the meta document and those children in order, succeeds, and returns a flat mapping
with one key per distinct stripped suffix TrimLeft(si, "/"), each mapped to the value fetched
for it, and no other keys. -/
theorem meta_expansion_result (cli : Client) (unmarshal : Unmarshal) (p : provider)
    (key : String) (e₀ : Error) (doc : String) (meta : List (String × Value))
    (ss : List String) (v : String → String)
    (hroot : GetString cli p key = .error e₀)
    (hmeta : GetString cli p (TrimRight key "/" ++ "/meta") = .ok doc)
    (hdec : unmarshal doc = .ok meta)
    (hfield : mapIndex meta metaKeysField = some (Value.seq (ss.map Value.str)))
    (hchild : ∀ s ∈ ss, GetString cli p (TrimRight key "/" ++ "/" ++ TrimLeft s "/")
      = .ok (v (TrimLeft s "/"))) :
    ∃ res, GetStringMap cli unmarshal p key =
        (key :: (TrimRight key "/" ++ "/meta")
          :: ss.map (fun s => TrimRight key "/" ++ "/" ++ TrimLeft s "/"), .ok res) ∧
      (mapKeys res).Nodup ∧
      (∀ k, k ∈ mapKeys res ↔ k ∈ ss.map (fun s => TrimLeft s "/")) ∧
      (∀ s ∈ ss, mapIndex res (TrimLeft s "/") = some (Value.str (v (TrimLeft s "/")))) := by
  refine ⟨ss.foldl (fun acc s =>
    mapAssign acc (TrimLeft s "/") (Value.str (v (TrimLeft s "/")))) [], ?_, ?_, ?_, ?_⟩
  · rw [GetStringMap_meta cli unmarshal p key e₀ doc meta _ ss hroot hmeta hdec hfield
      (suffixesOf_seq_str ss), fetchSuffixes_ok cli p key v ss [] hchild]
  · exact nodup_mapKeys_foldl_assign (fun s => TrimLeft s "/") (fun k => Value.str (v k)) ss []
      (by simp [mapKeys])
  · intro k
    rw [mem_mapKeys_foldl_assign (fun s => TrimLeft s "/") (fun k => Value.str (v k)) ss [] k]
    simp [mapKeys]
  · intro s hs
    exact mapIndex_foldl_assign_of_mem (fun s => TrimLeft s "/") (fun k => Value.str (v k)) ss []
      (TrimLeft s "/") (List.mem_map_of_mem _ hs)

/-- Witness for C1 (amended): meta field ["x","y"], R/x -> "X", R/y -> "Y". -/
theorem meta_expansion_result_witness :
    ∃ res, GetStringMap (Sample.store [("r/meta", "M"), ("r/x", "X"), ("r/y", "Y")])
        (Sample.decoder [("M", [(metaKeysField, Value.seq [Value.str "x", Value.str "y"])])])
        Sample.plain "r" = (["r", "r/meta", "r/x", "r/y"], .ok res) ∧
      (mapKeys res).Nodup ∧
      (∀ k, k ∈ mapKeys res ↔ k ∈ ["x", "y"]) ∧
      (∀ s ∈ ["x", "y"], mapIndex res (TrimLeft s "/")
        = some (Value.str ((fun k => if k = "x" then "X" else "Y") (TrimLeft s "/")))) :=
  meta_expansion_result (Sample.store [("r/meta", "M"), ("r/x", "X"), ("r/y", "Y")])
    (Sample.decoder [("M", [(metaKeysField, Value.seq [Value.str "x", Value.str "y"])])])
    Sample.plain "r" (.getParameter "ResourceNotFoundException") "M"
    [(metaKeysField, Value.seq [Value.str "x", Value.str "y"])] ["x", "y"]
    (fun k => if k = "x" then "X" else "Y") rfl rfl rfl rfl
    (by intro s hs; simp at hs; rcases hs with rfl | rfl <;> rfl)

/-- C3 (as stated) does not hold: a root whose scalar fetch succeeds with a value that fails
structured decode makes `GetStringMap` fail at once; the meta document is never fetched and no
mapping is returned, although the meta document is valid and the child is fetchable. -/
theorem decode_failure_does_not_fall_back :
    ¬ (∀ (cli : Client) (unmarshal : Unmarshal) (p : provider) (key yamlStr err doc : String)
        (meta : List (String × Value)) (ss : List String) (v : String → String),
        GetString cli p key = .ok yamlStr →
        unmarshal yamlStr = .error err →
        GetString cli p (TrimRight key "/" ++ "/meta") = .ok doc →
        unmarshal doc = .ok meta →
        mapIndex meta metaKeysField = some (Value.seq (ss.map Value.str)) →
        (∀ s ∈ ss, GetString cli p (TrimRight key "/" ++ "/" ++ TrimLeft s "/")
          = .ok (v (TrimLeft s "/"))) →
        (TrimRight key "/" ++ "/meta") ∈ (GetStringMap cli unmarshal p key).1 ∧
          ∃ res, (GetStringMap cli unmarshal p key).2 = .ok res) := by
  intro h
  obtain ⟨hmem, _⟩ :=
    h (Sample.store [("r", "plain text"), ("r/meta", "M"), ("r/x", "X")])
      (Sample.decoder [("M", [(metaKeysField, Value.seq [Value.str "x"])])])
      Sample.plain "r" "plain text" "yaml: unmarshal errors" "M"
      [(metaKeysField, Value.seq [Value.str "x"])] ["x"] (fun _ => "X")
      rfl rfl rfl rfl rfl (by intro s hs; simp at hs; subst hs; rfl)
  have hrun : (GetStringMap (Sample.store [("r", "plain text"), ("r/meta", "M"), ("r/x", "X")])
      (Sample.decoder [("M", [(metaKeysField, Value.seq [Value.str "x"])])])
      Sample.plain "r").1 = ["r"] := rfl
  rw [hrun] at hmem
  have hne : TrimRight "r" "/" ++ "/meta" = "r/meta" := by decide
  rw [hne] at hmem
  simp at hmem

/-- C3 (amended): the fallback is triggered by a failing scalar fetch of the root, not by a
failing decode. (a) When the root's fetch succeeds and its value fails structured decode,
`GetStringMap` fails with the parse error after that single fetch. (b) When the root's fetch
fails, `GetStringMap` goes on to fetch the scalar at TrimRight(R, "/") + "/meta". (c) When in
addition the meta document is valid and the children are fetchable, it returns the mapping from
each stripped suffix to its value. -/
theorem fallback_trigger :
    (∀ (cli : Client) (unmarshal : Unmarshal) (p : provider) (key yamlStr err : String),
        GetString cli p key = .ok yamlStr → unmarshal yamlStr = .error err →
        GetStringMap cli unmarshal p key = ([key], .error (.parseYaml key err))) ∧
    (∀ (cli : Client) (unmarshal : Unmarshal) (p : provider) (key : String) (e₀ : Error),
        GetString cli p key = .error e₀ →
        ∃ rest, (GetStringMap cli unmarshal p key).1
          = key :: (TrimRight key "/" ++ "/meta") :: rest) ∧
    (∀ (cli : Client) (unmarshal : Unmarshal) (p : provider) (key : String) (e₀ : Error)
        (doc : String) (meta : List (String × Value)) (ss : List String) (v : String → String),
        GetString cli p key = .error e₀ →
        GetString cli p (TrimRight key "/" ++ "/meta") = .ok doc →
        unmarshal doc = .ok meta →
        mapIndex meta metaKeysField = some (Value.seq (ss.map Value.str)) →
        (∀ s ∈ ss, GetString cli p (TrimRight key "/" ++ "/" ++ TrimLeft s "/")
          = .ok (v (TrimLeft s "/"))) →
        ∃ res, (GetStringMap cli unmarshal p key).2 = .ok res ∧
          ∀ s ∈ ss, mapIndex res (TrimLeft s "/") = some (Value.str (v (TrimLeft s "/")))) := by
  refine ⟨?_, ?_, ?_⟩
  · intro cli unmarshal p key yamlStr err hroot hdec
    simp [GetStringMap, hroot, hdec]
  · intro cli unmarshal p key e₀ hroot
    simp only [GetStringMap, hroot]
    cases hm : GetString cli p (TrimRight key "/" ++ "/meta") with
    | error e => exact ⟨[], rfl⟩
    | ok str =>
      simp only []
      cases hd : unmarshal str with
      | error e => exact ⟨[], rfl⟩
      | ok meta =>
        simp only []
        cases hf : mapIndex meta metaKeysField with
        | none => exact ⟨[], rfl⟩
        | some f =>
          simp only []
          cases hs : suffixesOf f with
          | none => exact ⟨[], rfl⟩
          | some ss => exact ⟨_, rfl⟩
  · intro cli unmarshal p key e₀ doc meta ss v hroot hmeta hdec hfield hchild
    rw [GetStringMap_meta cli unmarshal p key e₀ doc meta _ ss hroot hmeta hdec hfield
      (suffixesOf_seq_str ss), fetchSuffixes_ok cli p key v ss [] hchild]
    refine ⟨_, rfl, ?_⟩
    intro s hs
    exact mapIndex_foldl_assign_of_mem (fun s => TrimLeft s "/") (fun k => Value.str (v k)) ss []
      (TrimLeft s "/") (List.mem_map_of_mem _ hs)

/-- Witness for C3 (amended): a root that decodes badly, a root that cannot be fetched, and a
root that cannot be fetched with a valid meta document. -/
theorem fallback_trigger_witness :
    GetStringMap (Sample.store [("r", "plain text"), ("r/meta", "M"), ("r/x", "X")])
        (Sample.decoder [("M", [(metaKeysField, Value.seq [Value.str "x"])])])
        Sample.plain "r" = (["r"], .error (.parseYaml "r" "yaml: unmarshal errors")) ∧
    (∃ rest, (GetStringMap (Sample.store []) (Sample.decoder []) Sample.plain "r").1
        = "r" :: (TrimRight "r" "/" ++ "/meta") :: rest) ∧
    (∃ res, (GetStringMap (Sample.store [("r/meta", "M"), ("r/x", "X")])
        (Sample.decoder [("M", [(metaKeysField, Value.seq [Value.str "x"])])])
        Sample.plain "r").2 = .ok res ∧
      ∀ s ∈ ["x"], mapIndex res (TrimLeft s "/")
        = some (Value.str ((fun _ => "X") (TrimLeft s "/")))) :=
  ⟨fallback_trigger.1 (Sample.store [("r", "plain text"), ("r/meta", "M"), ("r/x", "X")])
      (Sample.decoder [("M", [(metaKeysField, Value.seq [Value.str "x"])])])
      Sample.plain "r" "plain text" "yaml: unmarshal errors" rfl rfl,
   fallback_trigger.2.1 (Sample.store []) (Sample.decoder []) Sample.plain "r"
      (.getParameter "ResourceNotFoundException") rfl,
   fallback_trigger.2.2 (Sample.store [("r/meta", "M"), ("r/x", "X")])
      (Sample.decoder [("M", [(metaKeysField, Value.seq [Value.str "x"])])])
      Sample.plain "r" (.getParameter "ResourceNotFoundException") "M"
      [(metaKeysField, Value.seq [Value.str "x"])] ["x"] (fun _ => "X") rfl rfl rfl rfl
      (by intro s hs; simp at hs; subst hs; rfl)⟩

/-- C4 (as stated) does not hold: a meta field holding the sequence [1], whose element is a
number, is not rejected; the element is taken by its text "1", the child R/1 is fetched and a
mapping is returned. -/
theorem non_string_sequence_is_accepted :
    ¬ (∀ (cli : Client) (unmarshal : Unmarshal) (p : provider) (key : String) (e₀ : Error)
        (doc : String) (meta : List (String × Value)) (f : Value),
        GetString cli p key = .error e₀ →
        GetString cli p (TrimRight key "/" ++ "/meta") = .ok doc →
        unmarshal doc = .ok meta →
        mapIndex meta metaKeysField = some f →
        (∀ ss : List String, f ≠ Value.seq (ss.map Value.str) ∧ f ≠ Value.strs ss) →
        (∃ e, (GetStringMap cli unmarshal p key).2 = .error e) ∧
          (GetStringMap cli unmarshal p key).1 = [key, TrimRight key "/" ++ "/meta"]) := by
  intro h
  obtain ⟨⟨e, he⟩, _⟩ :=
    h (Sample.store [("r/meta", "M"), ("r/1", "ONE")])
      (Sample.decoder [("M", [(metaKeysField, Value.seq [Value.int 1])])])
      Sample.plain "r" (.getParameter "ResourceNotFoundException") "M"
      [(metaKeysField, Value.seq [Value.int 1])] (Value.seq [Value.int 1])
      rfl rfl rfl rfl
      (by
        intro ss
        refine ⟨?_, by simp⟩
        cases ss with
        | nil => simp
        | cons a rest => simp)
  have hrun : (GetStringMap (Sample.store [("r/meta", "M"), ("r/1", "ONE")])
      (Sample.decoder [("M", [(metaKeysField, Value.seq [Value.int 1])])])
      Sample.plain "r").2 = .ok [("1", Value.str "ONE")] := rfl
  rw [hrun] at he
  cases he

/-- C4 (amended): in meta-key expansion, (a) a meta field whose value is not a sequence at all
(a scalar or a mapping) makes `GetStringMap` fail with the not-an-array error after fetching only
the root and the meta document, so no child location is fetched; (b) a meta field whose value is
a sequence is accepted whatever its elements are: each element is taken by its `%v` text as a
suffix and the children are fetched as for a sequence of strings. -/
theorem invalid_metadata :
    (∀ (cli : Client) (unmarshal : Unmarshal) (p : provider) (key : String) (e₀ : Error)
        (doc : String) (meta : List (String × Value)) (f : Value),
        GetString cli p key = .error e₀ →
        GetString cli p (TrimRight key "/" ++ "/meta") = .ok doc →
        unmarshal doc = .ok meta →
        mapIndex meta metaKeysField = some f →
        (∀ xs, f ≠ Value.seq xs) → (∀ ss, f ≠ Value.strs ss) →
        GetStringMap cli unmarshal p key
          = ([key, TrimRight key "/" ++ "/meta"], .error .notArray)) ∧
    (∀ (cli : Client) (unmarshal : Unmarshal) (p : provider) (key : String) (e₀ : Error)
        (doc : String) (meta : List (String × Value)) (xs : List Value),
        GetString cli p key = .error e₀ →
        GetString cli p (TrimRight key "/" ++ "/meta") = .ok doc →
        unmarshal doc = .ok meta →
        mapIndex meta metaKeysField = some (Value.seq xs) →
        GetStringMap cli unmarshal p key =
          (key :: (TrimRight key "/" ++ "/meta")
            :: (fetchSuffixes cli p key (xs.map sprintV) []).1,
           (fetchSuffixes cli p key (xs.map sprintV) []).2)) := by
  refine ⟨?_, ?_⟩
  · intro cli unmarshal p key e₀ doc meta f hroot hmeta hdec hfield hseq hstrs
    have hnone : suffixesOf f = none := by
      cases f with
      | strs ss => exact absurd rfl (hstrs ss)
      | seq xs => exact absurd rfl (hseq xs)
      | null => rfl
      | bool b => rfl
      | int i => rfl
      | str s => rfl
      | other s => rfl
      | map kvs => rfl
    simp [GetStringMap, hroot, hmeta, hdec, hfield, hnone]
  · intro cli unmarshal p key e₀ doc meta xs hroot hmeta hdec hfield
    exact GetStringMap_meta cli unmarshal p key e₀ doc meta _ _ hroot hmeta hdec hfield rfl

/-- Witness for C4 (amended): a meta field holding the scalar "x" is rejected without a child
fetch; a meta field holding [1] is expanded. -/
theorem invalid_metadata_witness :
    GetStringMap (Sample.store [("r/meta", "M"), ("r/x", "X")])
        (Sample.decoder [("M", [(metaKeysField, Value.str "x")])]) Sample.plain "r"
      = (["r", TrimRight "r" "/" ++ "/meta"], .error .notArray) ∧
    GetStringMap (Sample.store [("r/meta", "M"), ("r/1", "ONE")])
        (Sample.decoder [("M", [(metaKeysField, Value.seq [Value.int 1])])]) Sample.plain "r"
      = ("r" :: (TrimRight "r" "/" ++ "/meta")
          :: (fetchSuffixes (Sample.store [("r/meta", "M"), ("r/1", "ONE")]) Sample.plain "r"
                ([Value.int 1].map sprintV) []).1,
         (fetchSuffixes (Sample.store [("r/meta", "M"), ("r/1", "ONE")]) Sample.plain "r"
                ([Value.int 1].map sprintV) []).2) :=
  ⟨invalid_metadata.1 (Sample.store [("r/meta", "M"), ("r/x", "X")])
      (Sample.decoder [("M", [(metaKeysField, Value.str "x")])]) Sample.plain "r"
      (.getParameter "ResourceNotFoundException") "M" [(metaKeysField, Value.str "x")]
      (Value.str "x") rfl rfl rfl rfl (by intro xs; simp) (by intro ss; simp),
   invalid_metadata.2 (Sample.store [("r/meta", "M"), ("r/1", "ONE")])
      (Sample.decoder [("M", [(metaKeysField, Value.seq [Value.int 1])])]) Sample.plain "r"
      (.getParameter "ResourceNotFoundException") "M"
      [(metaKeysField, Value.seq [Value.int 1])] [Value.int 1] rfl rfl rfl rfl⟩

/-- C6: in meta-key expansion, (a) when the scalar fetch of a listed child fails and every child
listed before it was fetched, `GetStringMap` returns no mapping but the error of that first
failing child, unchanged; (b) whenever a mapping is returned, every value in it is the string
obtained by a successful fetch of the child at TrimRight(R, "/") + "/" + key. -/
theorem no_silent_downgrade :
    (∀ (cli : Client) (unmarshal : Unmarshal) (p : provider) (key : String) (e₀ : Error)
        (doc : String) (meta : List (String × Value)) (f : Value)
        (pre : List String) (s : String) (post : List String) (e : Error),
        GetString cli p key = .error e₀ →
        GetString cli p (TrimRight key "/" ++ "/meta") = .ok doc →
        unmarshal doc = .ok meta →
        mapIndex meta metaKeysField = some f →
        suffixesOf f = some (pre ++ s :: post) →
        (∀ t ∈ pre, ∃ x, GetString cli p (TrimRight key "/" ++ "/" ++ TrimLeft t "/") = .ok x) →
        GetString cli p (TrimRight key "/" ++ "/" ++ TrimLeft s "/") = .error e →
        (GetStringMap cli unmarshal p key).2 = .error e) ∧
    (∀ (cli : Client) (unmarshal : Unmarshal) (p : provider) (key : String) (e₀ : Error)
        (res : List (String × Value)),
        GetString cli p key = .error e₀ →
        (GetStringMap cli unmarshal p key).2 = .ok res →
        ∀ k val, (k, val) ∈ res →
          ∃ x, val = Value.str x ∧ GetString cli p (TrimRight key "/" ++ "/" ++ k) = .ok x) := by
  refine ⟨?_, ?_⟩
  · intro cli unmarshal p key e₀ doc meta f pre s post e hroot hmeta hdec hfield hsuf hpre hfail
    rw [GetStringMap_meta cli unmarshal p key e₀ doc meta f _ hroot hmeta hdec hfield hsuf,
      fetchSuffixes_error cli p key pre s post e [] hpre hfail]
  · intro cli unmarshal p key e₀ res hroot hres k val hmem
    simp only [GetStringMap, hroot] at hres
    cases hm : GetString cli p (TrimRight key "/" ++ "/meta") with
    | error e => simp [hm] at hres
    | ok str =>
      simp only [hm] at hres
      cases hd : unmarshal str with
      | error e => simp [hd] at hres
      | ok meta =>
        simp only [hd] at hres
        cases hf : mapIndex meta metaKeysField with
        | none => simp [hf] at hres
        | some f =>
          simp only [hf] at hres
          cases hs : suffixesOf f with
          | none => simp [hs] at hres
          | some ss =>
            simp only [hs] at hres
            rcases fetchSuffixes_sound cli p key ss [] res hres k val hmem with h | h
            · simp at h
            · exact h

/-- Witness for C6: suffixes ["x","y"] with R/x fetchable and R/y missing give the error of R/y;
with both fetchable every returned value comes from a fetch. -/
theorem no_silent_downgrade_witness :
    (GetStringMap (Sample.store [("r/meta", "M"), ("r/x", "X")])
        (Sample.decoder [("M", [(metaKeysField, Value.seq [Value.str "x", Value.str "y"])])])
        Sample.plain "r").2 = .error (.getParameter "ResourceNotFoundException") ∧
    (∀ k val, (k, val) ∈ [("x", Value.str "X"), ("y", Value.str "Y")] →
      ∃ x, val = Value.str x ∧
        GetString (Sample.store [("r/meta", "M"), ("r/x", "X"), ("r/y", "Y")]) Sample.plain
          (TrimRight "r" "/" ++ "/" ++ k) = .ok x) :=
  ⟨no_silent_downgrade.1 (Sample.store [("r/meta", "M"), ("r/x", "X")])
      (Sample.decoder [("M", [(metaKeysField, Value.seq [Value.str "x", Value.str "y"])])])
      Sample.plain "r" (.getParameter "ResourceNotFoundException") "M"
      [(metaKeysField, Value.seq [Value.str "x", Value.str "y"])]
      (Value.seq [Value.str "x", Value.str "y"]) ["x"] "y" []
      (.getParameter "ResourceNotFoundException") rfl rfl rfl rfl rfl
      (by intro t ht; simp at ht; subst ht; exact ⟨"X", rfl⟩) rfl,
   no_silent_downgrade.2 (Sample.store [("r/meta", "M"), ("r/x", "X"), ("r/y", "Y")])
      (Sample.decoder [("M", [(metaKeysField, Value.seq [Value.str "x", Value.str "y"])])])
      Sample.plain "r" (.getParameter "ResourceNotFoundException")
      [("x", Value.str "X"), ("y", Value.str "Y")] rfl rfl⟩

end awssecrets

/-! ## The two registries -/

/-- C7: a configuration whose "name" is not a tag of the registry (the empty name included) makes
`stringprovider.New`, respectively `stringmapprovider.New`, return its error and no provider with
no backend constructor invoked; and the tags listed are exactly those for which a constructor is
invoked. -/
theorem unknown_tag_rejected (k8sNew : StaticConfig → Except String Unit)
    (provider : StaticConfig) :
    (provider.String "name" ∉ stringprovider.tags →
      stringprovider.New k8sNew provider = ([], .error (.stringProvider provider))) ∧
    (provider.String "name" ∉ stringmapprovider.tags →
      stringmapprovider.New k8sNew provider = ([], .error (.stringMapProvider provider))) ∧
    (provider.String "name" ∈ stringprovider.tags →
      (stringprovider.New k8sNew provider).1 ≠ []) ∧
    (provider.String "name" ∈ stringmapprovider.tags →
      (stringmapprovider.New k8sNew provider).1 ≠ []) := by
  refine ⟨?_, ?_, ?_, ?_⟩
  · intro h
    unfold stringprovider.New
    simp only []
    generalize provider.String "name" = t at h ⊢
    simp only [stringprovider.tags, List.mem_cons, List.mem_singleton, not_or,
      List.mem_nil_iff, not_false_eq_true, and_true] at h
    obtain ⟨h1, h2, h3, h4, h5, h6, h7, h8, h9, h10, h11, h12, h13, h14, h15, h16, h17, h18,
      h19, h20, h21, h22, h23, h24⟩ := h
    rw [if_neg h1, if_neg h2, if_neg h3, if_neg h4, if_neg h5, if_neg h6, if_neg h7, if_neg h8,
      if_neg h9, if_neg h10, if_neg h11, if_neg h12, if_neg h13, if_neg h14, if_neg h15,
      if_neg h16, if_neg h17, if_neg h18, if_neg h19, if_neg h20, if_neg h21, if_neg h22,
      if_neg h23, if_neg h24]
  · intro h
    unfold stringmapprovider.New
    simp only []
    generalize provider.String "name" = t at h ⊢
    simp only [stringmapprovider.tags, List.mem_cons, List.mem_singleton, not_or,
      List.mem_nil_iff, not_false_eq_true, and_true] at h
    obtain ⟨h1, h2, h3, h4, h5, h6, h7, h8, h9, h10, h11, h12, h13⟩ := h
    rw [if_neg h1, if_neg h2, if_neg h3, if_neg h4, if_neg h5, if_neg h6, if_neg h7, if_neg h8,
      if_neg h9, if_neg h10, if_neg h11, if_neg h12, if_neg h13]
  · intro h
    have hk : (constructK8s k8sNew provider).1 ≠ [] := by
      unfold constructK8s
      cases k8sNew provider <;> exact List.cons_ne_nil _ _
    unfold stringprovider.New
    simp only []
    generalize provider.String "name" = t at h ⊢
    simp only [stringprovider.tags, List.mem_cons, List.mem_singleton, List.mem_nil_iff,
      or_false] at h
    rcases h with h | h | h | h | h | h | h | h | h | h | h | h | h | h | h | h | h | h | h | h | h | h | h | h
    all_goals subst h
    all_goals first
      | exact List.cons_ne_nil _ _
      | exact hk
  · intro h
    have hk : (constructK8s k8sNew provider).1 ≠ [] := by
      unfold constructK8s
      cases k8sNew provider <;> exact List.cons_ne_nil _ _
    unfold stringmapprovider.New
    simp only []
    generalize provider.String "name" = t at h ⊢
    simp only [stringmapprovider.tags, List.mem_cons, List.mem_singleton, List.mem_nil_iff,
      or_false] at h
    rcases h with h | h | h | h | h | h | h | h | h | h | h | h | h
    all_goals subst h
    all_goals first
      | exact List.cons_ne_nil _ _
      | exact hk

/-- Witness for C7: a configuration without a name, and the tag "ssm". -/
theorem unknown_tag_rejected_witness :
    stringprovider.New (fun _ => .ok ()) [] = ([], .error (.stringProvider [])) ∧
    stringmapprovider.New (fun _ => .ok ()) [("name", "gcs")]
      = ([], .error (.stringMapProvider [("name", "gcs")])) ∧
    (stringprovider.New (fun _ => .ok ()) [("name", "ssm")]).1 ≠ [] ∧
    (stringmapprovider.New (fun _ => .ok ()) [("name", "ssm")]).1 ≠ [] :=
  ⟨(unknown_tag_rejected (fun _ => .ok ()) []).1 (by decide),
   (unknown_tag_rejected (fun _ => .ok ()) [("name", "gcs")]).2.1 (by decide),
   (unknown_tag_rejected (fun _ => .ok ()) [("name", "ssm")]).2.2.1 (by decide),
   (unknown_tag_rejected (fun _ => .ok ()) [("name", "ssm")]).2.2.2 (by decide)⟩

/-- C10 on the code: every tag of `stringmapprovider.New` is a tag of `stringprovider.New`, and
for every such tag other than "s3" both registries invoke the same constructor with the same
outcome; for the tag "s3" the mapping registry invokes the constructor of the ssm backend while
the scalar registry invokes the constructor of the s3 backend. -/
theorem registries_on_shared_tags (k8sNew : StaticConfig → Except String Unit) :
    (∀ t ∈ stringmapprovider.tags, t ∈ stringprovider.tags) ∧
    (∀ provider : StaticConfig, provider.String "name" ∈ stringmapprovider.tags →
      provider.String "name" ≠ "s3" →
      stringmapprovider.New k8sNew provider = stringprovider.New k8sNew provider) ∧
    stringmapprovider.New k8sNew [("name", "s3")] = ([Backend.ssm], .ok Backend.ssm) ∧
    stringprovider.New k8sNew [("name", "s3")] = ([Backend.s3], .ok Backend.s3) := by
  refine ⟨by decide, ?_, rfl, rfl⟩
  intro provider h hs3
  simp only [stringmapprovider.tags, List.mem_cons, List.mem_singleton, List.mem_nil_iff,
    or_false] at h
  unfold stringmapprovider.New stringprovider.New
  simp only []
  generalize provider.String "name" = t at h hs3 ⊢
  rcases h with h | h | h | h | h | h | h | h | h | h | h | h | h
  · exact absurd h hs3
  all_goals (subst h; rfl)

/-- Witness for C10 on the code: the tag "vault" is resolved alike by both registries. -/
theorem registries_on_shared_tags_witness :
    stringmapprovider.New (fun _ => .ok ()) [("name", "vault")]
      = stringprovider.New (fun _ => .ok ()) [("name", "vault")] :=
  (registries_on_shared_tags (fun _ => .ok ())).2.1 [("name", "vault")] (by decide) (by decide)

/-! ## httpjson: the extraction expression -/

namespace httpjson

theorem sep_infix_cons_cons (c d : Char) (rest : List Char) :
    ['#', '/'] <:+: c :: d :: rest ↔ (c = '#' ∧ d = '/') ∨ ['#', '/'] <:+: d :: rest := by
  rw [List.infix_cons_iff]
  constructor
  · rintro (h | h)
    · left
      obtain ⟨t, ht⟩ := h
      simp at ht
      exact ⟨ht.1.symm, ht.2.1.symm⟩
    · exact Or.inr h
  · rintro (⟨rfl, rfl⟩ | h)
    · exact Or.inl ⟨rest, rfl⟩
    · exact Or.inr h

theorem splitHashSlash_of_no_sep :
    ∀ (l acc : List Char), ¬ ['#', '/'] <:+: l →
      splitHashSlash l acc = [⟨acc.reverse ++ l⟩] := by
  intro l
  induction l with
  | nil => intro acc _; simp [splitHashSlash]
  | cons c l ih =>
    intro acc h
    cases l with
    | nil => simp [splitHashSlash]
    | cons d rest =>
      rw [sep_infix_cons_cons] at h
      have h1 : ¬ (c = '#' ∧ d = '/') := fun hc => h (Or.inl hc)
      have h2 : ¬ ['#', '/'] <:+: d :: rest := fun hc => h (Or.inr hc)
      rw [splitHashSlash, if_neg h1, ih (c :: acc) h2]
      simp

theorem splitHashSlash_first :
    ∀ (pre acc t : List Char), ¬ ['#', '/'] <:+: pre →
      splitHashSlash (pre ++ '#' :: '/' :: t) acc
        = ⟨acc.reverse ++ pre⟩ :: splitHashSlash t [] := by
  intro pre
  induction pre with
  | nil => intro acc t _; simp [splitHashSlash]
  | cons c pre ih =>
    intro acc t h
    cases pre with
    | nil =>
      have h1 : ¬ (c = '#' ∧ '#' = '/') := by
        rintro ⟨_, h⟩
        exact absurd h (by decide)
      have := ih (c :: acc) t (by simp)
      simp only [List.nil_append] at this
      simp only [List.cons_append, List.nil_append]
      rw [splitHashSlash, if_neg h1, this]
      simp
    | cons d rest =>
      rw [sep_infix_cons_cons] at h
      have h1 : ¬ (c = '#' ∧ d = '/') := fun hc => h (Or.inl hc)
      have h2 : ¬ ['#', '/'] <:+: d :: rest := fun hc => h (Or.inr hc)
      have := ih (c :: acc) t h2
      simp only [List.cons_append] at this ⊢
      rw [splitHashSlash, if_neg h1, this]
      simp

theorem exists_first_sep :
    ∀ l : List Char, ['#', '/'] <:+: l →
      ∃ pre t, l = pre ++ '#' :: '/' :: t ∧ ¬ ['#', '/'] <:+: pre := by
  intro l
  induction l with
  | nil => intro h; simp at h
  | cons c l ih =>
    intro h
    by_cases hp : ['#', '/'] <+: c :: l
    · obtain ⟨t, ht⟩ := hp
      exact ⟨[], t, by simpa using ht.symm, by simp⟩
    · rw [List.infix_cons_iff] at h
      rcases h with h | h
      · exact absurd h hp
      · obtain ⟨pre, t, hl, hpre⟩ := ih h
        refine ⟨c :: pre, t, by simp [hl], ?_⟩
        rw [List.infix_cons_iff]
        rintro (h' | h')
        · apply hp
          obtain ⟨u, hu⟩ := h'
          have hu' : c :: pre = '#' :: '/' :: u := by simpa using hu.symm
          exact ⟨u ++ '#' :: '/' :: t, by rw [hl, ← List.cons_append, hu']; simp⟩
        · exact hpre h'

/-- C8 (as stated) does not hold: for a uri with a second "#/" the expression returned is not
the whole text following the first "#/" but only the part before the second one. -/
theorem xpath_is_not_whole_text :
    ¬ (∀ (compile : String → Except String Unit) (uri : String) (pre t : List Char),
        uri.data = pre ++ '#' :: '/' :: t → ¬ ['#', '/'] <:+: pre →
        compile ⟨t⟩ = .ok () → GetXpathFromUri compile uri = .ok ⟨t⟩) := by
  intro h
  have h1 := h (fun _ => .ok ()) "httpjson://h/d#/a#/b" "httpjson://h/d".data "a#/b".data
    (by decide) (by decide) rfl
  have h2 : GetXpathFromUri (fun _ => .ok ()) "httpjson://h/d#/a#/b" = .ok "a" := by rfl
  rw [h2] at h1
  have h3 : ("a" : String) = ⟨"a#/b".data⟩ := by injection h1
  exact absurd h3 (by decide)

/-- C8 (amended): `GetXpathFromUri` takes as the extraction expression the text between the first
"#/" of the uri and the next "#/" (or the end of the uri). (a) A uri with no "#/" fails with the
no-expression error. (b) For a uri cut at its first "#/" into `pre`, the expression `mid` and a
remainder that is empty or starts with "#/", the call fails with the compile error when `mid`
does not compile and returns exactly `mid` when it does. (c) Every uri containing "#/" can be
cut in this way. -/
theorem GetXpathFromUri_spec (compile : String → Except String Unit) (uri : String) :
    (¬ ['#', '/'] <:+: uri.data → GetXpathFromUri compile uri = .error (.noXpath uri)) ∧
    (∀ pre mid rest : List Char, uri.data = pre ++ '#' :: '/' :: (mid ++ rest) →
      ¬ ['#', '/'] <:+: pre → ¬ ['#', '/'] <:+: mid → (rest = [] ∨ ['#', '/'] <+: rest) →
      GetXpathFromUri compile uri =
        match compile ⟨mid⟩ with
        | .error _ => .error (.compileXpath "" uri)
        | .ok _ => .ok ⟨mid⟩) ∧
    (['#', '/'] <:+: uri.data →
      ∃ pre mid rest : List Char, uri.data = pre ++ '#' :: '/' :: (mid ++ rest) ∧
        ¬ ['#', '/'] <:+: pre ∧ ¬ ['#', '/'] <:+: mid ∧ (rest = [] ∨ ['#', '/'] <+: rest)) := by
  refine ⟨?_, ?_, ?_⟩
  · intro h
    simp [GetXpathFromUri, splitHashSlash_of_no_sep uri.data [] h]
  · intro pre mid rest huri hpre hmid hrest
    have hsplit : ∃ tail, splitHashSlash uri.data [] = ⟨pre⟩ :: ⟨mid⟩ :: tail := by
      rw [huri, splitHashSlash_first pre [] (mid ++ rest) hpre]
      rcases hrest with rfl | ⟨r, rfl⟩
      · refine ⟨[], ?_⟩
        rw [List.append_nil, splitHashSlash_of_no_sep mid [] hmid]
        simp
      · refine ⟨splitHashSlash r [], ?_⟩
        have := splitHashSlash_first mid [] r hmid
        simp only [List.cons_append, List.nil_append] at this ⊢
        rw [this]
        simp
    obtain ⟨tail, htail⟩ := hsplit
    simp [GetXpathFromUri, htail]
  · intro h
    obtain ⟨pre, t, hl, hpre⟩ := exists_first_sep uri.data h
    by_cases ht : ['#', '/'] <:+: t
    · obtain ⟨mid, r, hr, hmid⟩ := exists_first_sep t ht
      exact ⟨pre, mid, '#' :: '/' :: r, by rw [hl, hr], hpre, hmid, Or.inr ⟨r, rfl⟩⟩
    · exact ⟨pre, t, [], by rw [hl]; simp, hpre, ht, Or.inl rfl⟩

/-- Witness for C8 (amended): a uri without expression, and a uri with two separators. -/
theorem GetXpathFromUri_spec_witness :
    GetXpathFromUri (fun _ => .ok ()) "httpjson://h/d" = .error (.noXpath "httpjson://h/d") ∧
    GetXpathFromUri (fun _ => .ok ()) "httpjson://h/d#/a#/b" = .ok "a" ∧
    (∃ pre mid rest : List Char,
      "httpjson://h/d#/a#/b".data = pre ++ '#' :: '/' :: (mid ++ rest) ∧
        ¬ ['#', '/'] <:+: pre ∧ ¬ ['#', '/'] <:+: mid ∧ (rest = [] ∨ ['#', '/'] <+: rest)) :=
  ⟨(GetXpathFromUri_spec (fun _ => .ok ()) "httpjson://h/d").1 (by decide),
   (GetXpathFromUri_spec (fun _ => .ok ()) "httpjson://h/d#/a#/b").2.1
      "httpjson://h/d".data "a".data "#/b".data (by decide) (by decide) (by decide)
      (Or.inr (by decide)),
   (GetXpathFromUri_spec (fun _ => .ok ()) "httpjson://h/d#/a#/b").2.2 (by decide)⟩

/-! ## httpjson: the document cache -/

theorem GetJsonDoc_cached {W Doc U : Type} (env : Env W Doc U) (s : State W Doc) (url : String)
    (doc : Doc) (h : mapIndex s.p.docs url = some doc) : GetJsonDoc env s url = (.ok (), s) := by
  simp [GetJsonDoc, h]

theorem GetJsonDoc_loaded {W Doc U : Type} (env : Env W Doc U) (s : State W Doc) (url : String)
    (doc : Doc) (net' : W) (h : mapIndex s.p.docs url = none)
    (hload : env.LoadURL s.net url = (.ok doc, net')) :
    GetJsonDoc env s url =
      (.ok (), { p := { s.p with docs := mapAssign s.p.docs url doc }, net := net',
                 log := s.log ++ [(url, true)] }) := by
  simp [GetJsonDoc, h, hload]

theorem GetJsonDoc_failed {W Doc U : Type} (env : Env W Doc U) (s : State W Doc) (url : String)
    (err : String) (net' : W) (h : mapIndex s.p.docs url = none)
    (hload : env.LoadURL s.net url = (.error err, net')) :
    GetJsonDoc env s url =
      (.error (.fetchDoc url err), { s with net := net', log := s.log ++ [(url, false)] }) := by
  simp [GetJsonDoc, h, hload]

/-- One call of `GetJsonDoc` adds a successful load of `u` to the log exactly when `u` enters the
cache, and never removes `u` from the cache. -/
theorem GetJsonDoc_step {W Doc U : Type} (env : Env W Doc U) (s : State W Doc)
    (url u : String) :
    (GetJsonDoc env s url).2.log.count (u, true)
        + (if (mapIndex s.p.docs u).isSome then 1 else 0)
      = s.log.count (u, true)
        + (if (mapIndex (GetJsonDoc env s url).2.p.docs u).isSome then 1 else 0) ∧
    ((mapIndex s.p.docs u).isSome → (mapIndex (GetJsonDoc env s url).2.p.docs u).isSome) := by
  cases hc : mapIndex s.p.docs url with
  | some doc =>
    rw [GetJsonDoc_cached env s url doc hc]
    exact ⟨rfl, id⟩
  | none =>
    cases hl : env.LoadURL s.net url with
    | mk r net' =>
      cases r with
      | error err =>
        rw [GetJsonDoc_failed env s url err net' hc hl]
        refine ⟨?_, id⟩
        simp [List.count_append]
      | ok doc =>
        rw [GetJsonDoc_loaded env s url doc net' hc hl]
        by_cases hu : u = url
        · subst hu
          simp [List.count_append, hc, mapIndex_mapAssign_self]
        · simp [List.count_append, mapIndex_mapAssign_of_ne _ _ hu, hu]

theorem getJsonDocs_count {W Doc U : Type} (env : Env W Doc U) (u : String) :
    ∀ (urls : List String) (s : State W Doc),
      (getJsonDocs env s urls).log.count (u, true)
          + (if (mapIndex s.p.docs u).isSome then 1 else 0)
        = s.log.count (u, true)
          + (if (mapIndex (getJsonDocs env s urls).p.docs u).isSome then 1 else 0) ∧
      ((mapIndex s.p.docs u).isSome → (mapIndex (getJsonDocs env s urls).p.docs u).isSome) := by
  intro urls
  induction urls with
  | nil => intro s; exact ⟨rfl, id⟩
  | cons url rest ih =>
    intro s
    obtain ⟨h1, h2⟩ := GetJsonDoc_step env s url u
    obtain ⟨h3, h4⟩ := ih (GetJsonDoc env s url).2
    simp only [getJsonDocs]
    exact ⟨by omega, fun h => h4 (h2 h)⟩

/-- C9: the document cache of the adapter. (a) A URL already in the cache makes `GetJsonDoc`
succeed with no load and the state unchanged. (b) For an absent URL whose load succeeds, the
call succeeds, one successful load is logged, the cache holds the loaded document under the URL
and every other entry is as before. (c) For an absent URL whose load fails, the error is
returned, the failed load is logged and the cache is unchanged. (d) Over any run of `GetJsonDoc`
calls the number of successful loads of a URL grows by at most one, and not at all when the URL
was cached at the start. -/
theorem document_cache {W Doc U : Type} (env : Env W Doc U) (s : State W Doc) (url : String) :
    (∀ doc, mapIndex s.p.docs url = some doc → GetJsonDoc env s url = (.ok (), s)) ∧
    (∀ doc net', mapIndex s.p.docs url = none → env.LoadURL s.net url = (.ok doc, net') →
      (GetJsonDoc env s url).1 = .ok () ∧
      (GetJsonDoc env s url).2.log = s.log ++ [(url, true)] ∧
      mapIndex (GetJsonDoc env s url).2.p.docs url = some doc ∧
      ∀ u, u ≠ url → mapIndex (GetJsonDoc env s url).2.p.docs u = mapIndex s.p.docs u) ∧
    (∀ err net', mapIndex s.p.docs url = none → env.LoadURL s.net url = (.error err, net') →
      (GetJsonDoc env s url).1 = .error (.fetchDoc url err) ∧
      (GetJsonDoc env s url).2.log = s.log ++ [(url, false)] ∧
      (GetJsonDoc env s url).2.p.docs = s.p.docs) ∧
    (∀ urls : List String,
      (getJsonDocs env s urls).log.count (url, true) ≤ s.log.count (url, true) + 1 ∧
      ((mapIndex s.p.docs url).isSome →
        (getJsonDocs env s urls).log.count (url, true) = s.log.count (url, true))) := by
  refine ⟨?_, ?_, ?_, ?_⟩
  · intro doc h
    exact GetJsonDoc_cached env s url doc h
  · intro doc net' h hload
    rw [GetJsonDoc_loaded env s url doc net' h hload]
    exact ⟨rfl, rfl, mapIndex_mapAssign_self _ _ _,
      fun u hu => mapIndex_mapAssign_of_ne _ _ hu⟩
  · intro err net' h hload
    rw [GetJsonDoc_failed env s url err net' h hload]
    exact ⟨rfl, rfl, rfl⟩
  · intro urls
    obtain ⟨h1, h2⟩ := getJsonDocs_count env url urls s
    refine ⟨?_, ?_⟩
    · split_ifs at h1 <;> omega
    · intro hc
      have := h2 hc
      rw [if_pos hc, if_pos this] at h1
      omega

/-- Witness for C9: a cached URL, a URL that loads, a URL that does not, and a run asking three
times for the same document. -/
theorem document_cache_witness :
    GetJsonDoc (Sample.httpEnv [("u", "D")])
        { Sample.fresh with p := { Sample.fresh.p with docs := [("u", "D")] } } "u"
      = (.ok (), { Sample.fresh with p := { Sample.fresh.p with docs := [("u", "D")] } }) ∧
    ((GetJsonDoc (Sample.httpEnv [("u", "D")]) Sample.fresh "u").1 = .ok () ∧
      (GetJsonDoc (Sample.httpEnv [("u", "D")]) Sample.fresh "u").2.log
        = Sample.fresh.log ++ [("u", true)] ∧
      mapIndex (GetJsonDoc (Sample.httpEnv [("u", "D")]) Sample.fresh "u").2.p.docs "u"
        = some "D" ∧
      ∀ u, u ≠ "u" →
        mapIndex (GetJsonDoc (Sample.httpEnv [("u", "D")]) Sample.fresh "u").2.p.docs u
          = mapIndex Sample.fresh.p.docs u) ∧
    ((GetJsonDoc (Sample.httpEnv []) Sample.fresh "u").1 = .error (.fetchDoc "u" "404") ∧
      (GetJsonDoc (Sample.httpEnv []) Sample.fresh "u").2.log
        = Sample.fresh.log ++ [("u", false)] ∧
      (GetJsonDoc (Sample.httpEnv []) Sample.fresh "u").2.p.docs = Sample.fresh.p.docs) ∧
    ((mapIndex ({ Sample.fresh with p := { Sample.fresh.p with docs := [("u", "D")] } } :
          State Nat String).p.docs "u").isSome →
      (getJsonDocs (Sample.httpEnv [("u", "D")])
          { Sample.fresh with p := { Sample.fresh.p with docs := [("u", "D")] } }
          ["u", "u", "u"]).log.count ("u", true)
        = ({ Sample.fresh with p := { Sample.fresh.p with docs := [("u", "D")] } } :
            State Nat String).log.count ("u", true)) :=
  ⟨(document_cache (Sample.httpEnv [("u", "D")])
      { Sample.fresh with p := { Sample.fresh.p with docs := [("u", "D")] } } "u").1 "D" rfl,
   (document_cache (Sample.httpEnv [("u", "D")]) Sample.fresh "u").2.1 "D" 1 rfl rfl,
   (document_cache (Sample.httpEnv []) Sample.fresh "u").2.2.1 "404" 1 rfl rfl,
   ((document_cache (Sample.httpEnv [("u", "D")])
      { Sample.fresh with p := { Sample.fresh.p with docs := [("u", "D")] } } "u").2.2.2
      ["u", "u", "u"]).2⟩

/-! ## httpjson: when the expression is checked -/

/-- C5 (as stated) does not hold: for a uri without "#/" whose document is not cached,
`GetString` fails, but only after the document has been loaded and put into the cache. -/
theorem expression_not_checked_before_load :
    ¬ (∀ (env : Env Nat String Sample.Url) (s : State Nat String) (uri : String) (e : Error),
        GetXpathFromUri env.Compile uri = .error e →
        (∃ e', (GetString env s uri).1 = .error e') ∧
          (GetString env s uri).2.log = s.log ∧
          (GetString env s uri).2.p.docs = s.p.docs) := by
  intro h
  obtain ⟨_, hlog, _⟩ :=
    h (Sample.httpEnv [("https://example.com/doc.json", "DOC")]) Sample.fresh
      "httpjson://example.com/doc.json" (.noXpath "httpjson://example.com/doc.json") rfl
  have hrun : (GetString (Sample.httpEnv [("https://example.com/doc.json", "DOC")]) Sample.fresh
      "httpjson://example.com/doc.json").2.log = [("https://example.com/doc.json", true)] := rfl
  rw [hrun] at hlog
  exact absurd hlog (by decide)

/-- C5 (amended): for a uri whose extraction expression is missing or does not compile,
`GetString` fails, but the expression is checked only after the URL has been derived and the
document obtained. (a) The call returns an error. (b) When the URL cannot be derived, that error
is returned and the state is unchanged. (c) When the URL is in the cache, the expression's error
is returned with no load. (d) When the URL is absent and its load succeeds, the load is logged
and the document enters the cache before the expression's error is returned. (e) When the URL
is absent and its load fails, the load is logged and the load's error is returned. -/
theorem expression_checked_after_load {W Doc U : Type} (env : Env W Doc U) (s : State W Doc)
    (uri : String) (e : Error) (hx : GetXpathFromUri env.Compile uri = .error e) :
    (∃ e', (GetString env s uri).1 = .error e') ∧
    (∀ err, GetUrlFromUri env.url uri s.p.protocol = .error err →
      GetString env s uri = (.error err, s)) ∧
    (∀ url, GetUrlFromUri env.url uri s.p.protocol = .ok url →
      (∀ doc, mapIndex s.p.docs url = some doc → GetString env s uri = (.error e, s)) ∧
      (∀ doc net', mapIndex s.p.docs url = none → env.LoadURL s.net url = (.ok doc, net') →
        GetString env s uri =
          (.error e, { p := { s.p with docs := mapAssign s.p.docs url doc }, net := net',
                       log := s.log ++ [(url, true)] })) ∧
      (∀ err net', mapIndex s.p.docs url = none → env.LoadURL s.net url = (.error err, net') →
        GetString env s uri =
          (.error (.fetchDoc url err),
           { s with net := net', log := s.log ++ [(url, false)] }))) := by
  have hb : ∀ err, GetUrlFromUri env.url uri s.p.protocol = .error err →
      GetString env s uri = (.error err, s) := by
    intro err hurl
    simp [GetString, hurl]
  have hc : ∀ url, GetUrlFromUri env.url uri s.p.protocol = .ok url →
      ∀ doc, mapIndex s.p.docs url = some doc → GetString env s uri = (.error e, s) := by
    intro url hurl doc hdoc
    simp [GetString, hurl, GetJsonDoc_cached env s url doc hdoc, hx]
  have hd : ∀ url, GetUrlFromUri env.url uri s.p.protocol = .ok url →
      ∀ doc net', mapIndex s.p.docs url = none → env.LoadURL s.net url = (.ok doc, net') →
        GetString env s uri =
          (.error e, { p := { s.p with docs := mapAssign s.p.docs url doc }, net := net',
                       log := s.log ++ [(url, true)] }) := by
    intro url hurl doc net' hdoc hload
    simp [GetString, hurl, GetJsonDoc_loaded env s url doc net' hdoc hload, hx]
  have he : ∀ url, GetUrlFromUri env.url uri s.p.protocol = .ok url →
      ∀ err net', mapIndex s.p.docs url = none → env.LoadURL s.net url = (.error err, net') →
        GetString env s uri =
          (.error (.fetchDoc url err),
           { s with net := net', log := s.log ++ [(url, false)] }) := by
    intro url hurl err net' hdoc hload
    simp [GetString, hurl, GetJsonDoc_failed env s url err net' hdoc hload]
  refine ⟨?_, hb, fun url hurl => ⟨hc url hurl, hd url hurl, he url hurl⟩⟩
  cases hurl : GetUrlFromUri env.url uri s.p.protocol with
  | error err => exact ⟨err, by rw [hb err hurl]⟩
  | ok url =>
    cases hdoc : mapIndex s.p.docs url with
    | some doc => exact ⟨e, by rw [hc url hurl doc hdoc]⟩
    | none =>
      cases hl : env.LoadURL s.net url with
      | mk r net' =>
        cases r with
        | error err => exact ⟨_, by rw [he url hurl err net' hdoc hl]⟩
        | ok doc => exact ⟨e, by rw [hd url hurl doc net' hdoc hl]⟩

/-- Witness for C5 (amended): a uri without expression on a fresh adapter; the document is loaded
and cached, then the missing expression is reported. -/
theorem expression_checked_after_load_witness :
    GetString (Sample.httpEnv [("https://example.com/doc.json", "DOC")]) Sample.fresh
        "httpjson://example.com/doc.json"
      = (.error (.noXpath "httpjson://example.com/doc.json"),
         { p := { Sample.fresh.p with
                  docs := mapAssign Sample.fresh.p.docs "https://example.com/doc.json" "DOC" },
           net := 1,
           log := Sample.fresh.log ++ [("https://example.com/doc.json", true)] }) :=
  ((expression_checked_after_load (Sample.httpEnv [("https://example.com/doc.json", "DOC")])
      Sample.fresh "httpjson://example.com/doc.json"
      (.noXpath "httpjson://example.com/doc.json") rfl).2.2
    "https://example.com/doc.json" rfl).2.1 "DOC" 1 rfl rfl

end httpjson

/-! ## Hierarchical assembler -/

namespace ssm

theorem getNode_none : ∀ q : List String, getNode q none = none := by
  intro q
  induction q with
  | nil => rfl
  | cons k rest ih => simpa [getNode, entriesOf, mapIndex] using ih

theorem entriesOf_setNode_nil (v : String) (n : Option Value) :
    entriesOf (some (setNode [] v n)) = entriesOf n := by
  cases n with
  | none => rfl
  | some x => cases x <;> rfl

/-- Placing a value at `p` leaves `p` a mapping if it was one, and makes it the scalar otherwise. -/
theorem getNode_setNode_self (v : String) :
    ∀ (p : List String) (n : Option Value),
      getNode p (some (setNode p v n)) =
        match getNode p n with
        | some (.map m) => some (.map m)
        | _ => some (.str v) := by
  intro p
  induction p with
  | nil =>
    intro n
    cases n with
    | none => rfl
    | some x => cases x <;> rfl
  | cons k rest ih =>
    intro n
    simp only [getNode, setNode, entriesOf, mapIndex_mapAssign_self]
    exact ih _

/-- Placing a value at `p` makes every strict prefix of `p` a mapping. -/
theorem getNode_setNode_above (v : String) :
    ∀ (q p : List String) (n : Option Value), q <+: p → q ≠ p →
      ∃ m, getNode q (some (setNode p v n)) = some (.map m) := by
  intro q
  induction q with
  | nil =>
    intro p n _ hne
    cases p with
    | nil => exact absurd rfl hne
    | cons k rest => exact ⟨_, rfl⟩
  | cons a q ih =>
    intro p n hpre hne
    cases p with
    | nil => simp at hpre
    | cons b p =>
      obtain ⟨hab, hqp⟩ := List.cons_prefix_cons.mp hpre
      subst hab
      have hne' : q ≠ p := fun h => hne (by rw [h])
      simp only [getNode, setNode, entriesOf, mapIndex_mapAssign_self]
      exact ih p _ hqp hne'

/-- Placing a value at `p` changes nothing at a path that is not a prefix of `p`. -/
theorem getNode_setNode_other (v : String) :
    ∀ (q p : List String) (n : Option Value), ¬ q <+: p →
      getNode q (some (setNode p v n)) = getNode q n := by
  intro q
  induction q with
  | nil => intro p n h; exact absurd (List.nil_prefix) h
  | cons a q ih =>
    intro p n h
    cases p with
    | nil => simp only [getNode, entriesOf_setNode_nil]
    | cons b p =>
      simp only [getNode, setNode, entriesOf]
      by_cases hab : a = b
      · subst hab
        have hqp : ¬ q <+: p := fun hc => h (List.cons_prefix_cons.mpr ⟨rfl, hc⟩)
        rw [mapIndex_mapAssign_self]
        exact ih p _ hqp
      · rw [mapIndex_mapAssign_of_ne _ _ hab]

theorem getNode_append : ∀ (p r : List String) (n : Option Value),
    getNode (p ++ r) n = getNode r (getNode p n) := by
  intro p
  induction p with
  | nil => intro r n; rfl
  | cons k rest ih => intro r n; simp only [List.cons_append, getNode]; exact ih _ _

theorem insertEntry_eq_setNode (m : List (String × Value)) (p : List String) (v : String) :
    Value.map (insertEntry m p v) = setNode p v (some (.map m)) := by
  cases p with
  | nil => rfl
  | cons k rest => rfl

theorem lookupPath_insertEntry (m : List (String × Value)) (p q : List String) (v : String) :
    lookupPath (insertEntry m p v) q = getNode q (some (setNode p v (some (.map m)))) := by
  simp only [lookupPath, insertEntry_eq_setNode]

theorem lookupPath_nil_cons (k : String) (rest : List String) :
    lookupPath [] (k :: rest) = none := by
  simp only [lookupPath, getNode, entriesOf, mapIndex]
  exact getNode_none rest

/-- A mapping node stays a mapping node when a further entry is placed. -/
theorem isMap_insertEntry (m : List (String × Value)) (p q : List String) (v : String)
    (h : ∃ cs, lookupPath m q = some (.map cs)) :
    ∃ cs, lookupPath (insertEntry m p v) q = some (.map cs) := by
  rw [lookupPath_insertEntry]
  by_cases hpre : q <+: p
  · by_cases heq : q = p
    · subst heq
      obtain ⟨cs, hcs⟩ := h
      rw [getNode_setNode_self]
      simp only [lookupPath] at hcs
      rw [hcs]
      exact ⟨cs, rfl⟩
    · exact getNode_setNode_above v q p _ hpre heq
  · rw [getNode_setNode_other v q p _ hpre]
    exact h

theorem isMap_foldl (q : List String) :
    ∀ (l : List (List String × String)) (m : List (String × Value)),
      (∃ cs, lookupPath m q = some (.map cs)) →
      ∃ cs, lookupPath (l.foldl (fun m e => insertEntry m e.1 e.2) m) q = some (.map cs) := by
  intro l
  induction l with
  | nil => intro m h; exact h
  | cons e rest ih =>
    intro m h
    simp only [List.foldl_cons]
    exact ih _ (isMap_insertEntry m e.1 q e.2 h)

/-- After all entries are placed, a strict prefix of the path of any entry is a mapping node. -/
theorem isMap_above_entry (q : List String) :
    ∀ (l : List (List String × String)) (m : List (String × Value)),
      (∃ e ∈ l, q <+: e.1 ∧ q ≠ e.1) →
      ∃ cs, lookupPath (l.foldl (fun m e => insertEntry m e.1 e.2) m) q = some (.map cs) := by
  intro l
  induction l with
  | nil => intro m h; simp at h
  | cons e rest ih =>
    intro m h
    simp only [List.foldl_cons]
    obtain ⟨e', he', hpre, hne⟩ := h
    rcases List.mem_cons.mp he' with heq | hmem
    · subst heq
      apply isMap_foldl
      rw [lookupPath_insertEntry]
      exact getNode_setNode_above _ q e'.1 _ hpre hne
    · exact ih _ ⟨e', hmem, hpre, hne⟩

/-- A mapping node of the result was a mapping node at the start or is a strict prefix of the
path of an entry. -/
theorem isMap_origin (q : List String) :
    ∀ (l : List (List String × String)) (m : List (String × Value)),
      (∃ cs, lookupPath (l.foldl (fun m e => insertEntry m e.1 e.2) m) q = some (.map cs)) →
      (∃ cs, lookupPath m q = some (.map cs)) ∨ ∃ e ∈ l, q <+: e.1 ∧ q ≠ e.1 := by
  intro l
  induction l with
  | nil => intro m h; exact Or.inl h
  | cons e rest ih =>
    intro m h
    simp only [List.foldl_cons] at h
    rcases ih _ h with ⟨cs, hcs⟩ | ⟨e', he', hpre, hne⟩
    · rw [lookupPath_insertEntry] at hcs
      by_cases hpre : q <+: e.1
      · by_cases heq : q = e.1
        · left
          rw [heq, getNode_setNode_self] at hcs
          rw [heq]
          simp only [lookupPath]
          cases hg : getNode e.1 (some (Value.map m)) with
          | none => rw [hg] at hcs; simp at hcs
          | some x =>
            rw [hg] at hcs
            cases x with
            | map cs' => exact ⟨cs', rfl⟩
            | null => simp at hcs
            | bool b => simp at hcs
            | int i => simp at hcs
            | str s => simp at hcs
            | other s => simp at hcs
            | strs xs => simp at hcs
            | seq xs => simp at hcs
        · exact Or.inr ⟨e, List.mem_cons_self _ _, hpre, heq⟩
      · rw [getNode_setNode_other _ q e.1 _ hpre] at hcs
        exact Or.inl ⟨cs, hcs⟩
    · exact Or.inr ⟨e', List.mem_cons_of_mem _ he', hpre, hne⟩

theorem lookupPath_foldl_unrelated (q : List String) :
    ∀ (l : List (List String × String)) (m : List (String × Value)),
      (∀ e ∈ l, ¬ q <+: e.1) →
      lookupPath (l.foldl (fun m e => insertEntry m e.1 e.2) m) q = lookupPath m q := by
  intro l
  induction l with
  | nil => intro m _; rfl
  | cons e rest ih =>
    intro m h
    simp only [List.foldl_cons]
    rw [ih _ (fun e' he' => h e' (List.mem_cons_of_mem _ he')), lookupPath_insertEntry,
      getNode_setNode_other _ q e.1 _ (h e (List.mem_cons_self _ _))]
    rfl

/-- An entry whose path is not a strict prefix of the path of another entry, and whose path no
other entry shares, ends as the scalar leaf holding its value. -/
theorem leaf_of_no_descendant (p : List String) (v : String) :
    ∀ (l : List (List String × String)) (m : List (String × Value)),
      (p, v) ∈ l → (l.map Prod.fst).Nodup → (∀ e ∈ l, ¬ (p <+: e.1 ∧ p ≠ e.1)) →
      (¬ ∃ cs, lookupPath m p = some (.map cs)) →
      lookupPath (l.foldl (fun m e => insertEntry m e.1 e.2) m) p = some (.str v) := by
  intro l
  induction l with
  | nil => intro m h; simp at h
  | cons e rest ih =>
    intro m hmem hnd hnp hm
    simp only [List.foldl_cons]
    have hnd' : e.1 ∉ rest.map Prod.fst ∧ (rest.map Prod.fst).Nodup := by
      simpa using hnd
    rcases List.mem_cons.mp hmem with heq | hrest
    · subst heq
      have hothers : ∀ e' ∈ rest, ¬ p <+: e'.1 := by
        intro e' he' hpre
        by_cases heq : p = e'.1
        · exact hnd'.1 (by rw [show (p, v).1 = e'.1 from heq]; exact List.mem_map_of_mem _ he')
        · exact hnp e' (List.mem_cons_of_mem _ he') ⟨hpre, heq⟩
      rw [lookupPath_foldl_unrelated p rest _ hothers, lookupPath_insertEntry,
        getNode_setNode_self]
      cases hg : getNode p (some (Value.map m)) with
      | none => rfl
      | some x =>
        cases x with
        | map cs => exact absurd ⟨cs, hg⟩ hm
        | null => rfl
        | bool b => rfl
        | int i => rfl
        | str s => rfl
        | other s => rfl
        | strs xs => rfl
        | seq xs => rfl
    · have hne : p ≠ e.1 := by
        intro heq
        exact hnd'.1 (by rw [← heq]; exact List.mem_map_of_mem Prod.fst hrest)
      have hpre : ¬ p <+: e.1 := fun hc => hnp e (List.mem_cons_self _ _) ⟨hc, hne⟩
      apply ih _ hrest hnd'.2 (fun e' he' => hnp e' (List.mem_cons_of_mem _ he'))
      rw [lookupPath_insertEntry, getNode_setNode_other _ p e.1 _ hpre]
      exact hm

theorem perm_insertSorted (e : String × String) :
    ∀ l : List (String × String), (insertSorted e l).Perm (e :: l) := by
  intro l
  induction l with
  | nil => simp [insertSorted]
  | cons x xs ih =>
    simp only [insertSorted]
    split
    · exact List.Perm.refl _
    · exact (List.Perm.cons x ih).trans (List.Perm.swap e x xs)

theorem perm_sortEntries : ∀ l : List (String × String), (sortEntries l).Perm l := by
  intro l
  induction l with
  | nil => exact List.Perm.refl _
  | cons e rest ih =>
    simp only [sortEntries, List.foldr_cons]
    exact (perm_insertSorted e _).trans (List.Perm.cons e ih)

/-! ### Paths and their segments -/

theorem splitSlash_slash (t acc : List Char) :
    splitSlash ('/' :: t) acc = ⟨acc.reverse⟩ :: splitSlash t [] := by
  simp [splitSlash]

theorem splitSlash_segment :
    ∀ (s t acc : List Char), '/' ∉ s → splitSlash (s ++ t) acc = splitSlash t (s.reverse ++ acc) := by
  intro s
  induction s with
  | nil => intro t acc _; rfl
  | cons c s ih =>
    intro t acc h
    have hc : c ≠ '/' := fun hc => h (by simp [hc])
    have hs : '/' ∉ s := fun hs => h (List.mem_cons_of_mem _ hs)
    have := ih t (c :: acc) hs
    simp only [List.cons_append, splitSlash, if_neg hc]
    simpa using this

theorem splitSlash_joinSegments :
    ∀ (segs : List String), segs ≠ [] → (∀ s ∈ segs, '/' ∉ s.data) →
      splitSlash (joinSegments segs) [] = segs := by
  intro segs
  induction segs with
  | nil => intro h; exact absurd rfl h
  | cons s rest ih =>
    intro _ hfree
    have hs : '/' ∉ s.data := hfree s (List.mem_cons_self _ _)
    cases rest with
    | nil =>
      have := splitSlash_segment s.data [] [] hs
      simp only [List.append_nil] at this
      simp [joinSegments, this, splitSlash]
    | cons r rest =>
      have hrest := ih (List.cons_ne_nil _ _) (fun x hx => hfree x (List.mem_cons_of_mem _ hx))
      simp only [joinSegments] at hrest ⊢
      rw [splitSlash_segment s.data _ [] hs, splitSlash_slash]
      simp only [List.append_nil, List.reverse_reverse]
      simp [hrest]

theorem relSegments_entryPath (root : String) (segs : List String)
    (h : ∀ s ∈ segs, s ≠ "" ∧ '/' ∉ s.data) :
    relSegments root (entryPath root segs) = segs := by
  have hpre : root.data.isPrefixOf (entryPath root segs).data = true := by
    rw [List.isPrefixOf_iff_prefix]
    exact List.prefix_append _ _
  have hdrop : (entryPath root segs).data.drop root.data.length = '/' :: joinSegments segs := by
    simp [entryPath]
  have hfilter : segs.filter (fun seg => decide (seg ≠ "")) = segs := by
    rw [List.filter_eq_self]
    intro s hs
    simpa using (h s hs).1
  simp only [relSegments, TrimPrefix, hpre, if_true, hdrop, splitSlash_slash]
  cases segs with
  | nil => simp [joinSegments, splitSlash]
  | cons s rest =>
    rw [splitSlash_joinSegments (s :: rest) (List.cons_ne_nil _ _) (fun x hx => (h x hx).2)]
    simp only [List.reverse_nil]
    rw [List.filter_cons_of_neg (by simp), hfilter]

theorem lookupPath_nil_of_ne (q : List String) (h : q ≠ []) : lookupPath [] q = none := by
  cases q with
  | nil => exact absurd rfl h
  | cons k rest => exact lookupPath_nil_cons k rest

theorem lookupPath_child (m cs : List (String × Value)) (p : List String) (k : String)
    (h : lookupPath m p = some (.map cs)) : lookupPath m (p ++ [k]) = mapIndex cs k := by
  simp only [lookupPath] at h ⊢
  rw [getNode_append, h]
  rfl

/-- After all entries are placed, every prefix of the path of an entry holds a node. -/
theorem node_of_prefix (q : List String) (hq : q ≠ []) (l : List (List String × String))
    (hnd : (l.map Prod.fst).Nodup) (h : ∃ e ∈ l, q <+: e.1) :
    lookupPath (l.foldl (fun m e => insertEntry m e.1 e.2) []) q ≠ none := by
  by_cases hstrict : ∃ e ∈ l, q <+: e.1 ∧ q ≠ e.1
  · obtain ⟨cs, hcs⟩ := isMap_above_entry q l [] hstrict
    rw [hcs]
    simp
  · obtain ⟨e, he, hpre⟩ := h
    have heq : q = e.1 := by
      by_contra hne
      exact hstrict ⟨e, he, hpre, hne⟩
    have hmem : (q, e.2) ∈ l := by rw [heq]; exact he
    rw [leaf_of_no_descendant q e.2 l [] hmem hnd
      (fun e' he' hc => hstrict ⟨e', he', hc⟩)
      (by rw [lookupPath_nil_of_ne q hq]; simp)]
    simp

/-- After all entries are placed, a path that is a prefix of the path of no entry holds
nothing. -/
theorem none_of_unrelated (q : List String) (hq : q ≠ []) (l : List (List String × String))
    (h : ¬ ∃ e ∈ l, q <+: e.1) :
    lookupPath (l.foldl (fun m e => insertEntry m e.1 e.2) []) q = none := by
  rw [lookupPath_foldl_unrelated q l [] (fun e he hc => h ⟨e, he, hc⟩)]
  exact lookupPath_nil_of_ne q hq

theorem getNode_of_not_map (k : String) (rest : List String) (n : Option Value)
    (h : entriesOf n = []) : getNode (k :: rest) n = none := by
  simp only [getNode, h, mapIndex]
  exact getNode_none rest

/-- C2 (as stated) does not hold for every flat set under R. (a) The entry stored at the root
itself is a prefix of no other entry, yet the nested mapping returned holds its value nowhere.
(b) Of two entries strictly below the root whose distinct paths name the same segments
(/foo/bar and /foo/bar/), neither segment path is a strict prefix of the other, yet only one
value is held by the result. -/
theorem leaf_policy_fails_on_some_flat_sets :
    (¬ (∀ (root : String) (entries : List (String × String)), entries ≠ [] →
        (∀ e ∈ entries, root.data <+: e.1.data) → (entries.map Prod.fst).Nodup →
        ∃ tree, Assemble root entries = .ok tree ∧
          ∀ e ∈ entries, (¬ ∃ e' ∈ entries, e.1.data <+: e'.1.data ∧ e.1 ≠ e'.1) →
            ∃ segs, lookupPath tree segs = some (.str e.2))) ∧
    (¬ (∀ (root : String) (entries : List (String × String)), entries ≠ [] →
        (∀ e ∈ entries, root.data <+: e.1.data ∧ root ≠ e.1) → (entries.map Prod.fst).Nodup →
        ∃ tree, Assemble root entries = .ok tree ∧
          ∀ e ∈ entries,
            (¬ ∃ e' ∈ entries, relSegments root e.1 <+: relSegments root e'.1 ∧
              relSegments root e.1 ≠ relSegments root e'.1) →
            ∃ segs, lookupPath tree segs = some (.str e.2))) := by
  refine ⟨?_, ?_⟩
  · intro h
    obtain ⟨tree, ht, hleaf⟩ := h "/foo" [("/foo", "X")] (by simp)
      (by intro e he; simp at he; subst he; exact List.prefix_refl _) (by simp)
    have hrun : Assemble "/foo" [("/foo", "X")] = .ok [] := rfl
    rw [hrun] at ht
    injection ht with ht
    subst ht
    obtain ⟨segs, hs⟩ := hleaf ("/foo", "X") (by simp)
      (by
        rintro ⟨e', he', _, hne⟩
        simp at he'
        subst he'
        exact hne rfl)
    cases segs with
    | nil => simp [lookupPath, getNode] at hs
    | cons k rest => simp [lookupPath_nil_cons] at hs
  · intro h
    obtain ⟨tree, ht, hleaf⟩ := h "/foo" [("/foo/bar", "1"), ("/foo/bar/", "2")] (by simp)
      (by
        intro e he
        simp at he
        rcases he with rfl | rfl
        · exact ⟨by decide, by decide⟩
        · exact ⟨by decide, by decide⟩)
      (by decide)
    have hrun : Assemble "/foo" [("/foo/bar", "1"), ("/foo/bar/", "2")]
        = .ok [("bar", .str "2")] := rfl
    rw [hrun] at ht
    injection ht with ht
    subst ht
    obtain ⟨segs, hs⟩ := hleaf ("/foo/bar", "1") (by simp)
      (by
        rintro ⟨e', he', _, hne⟩
        simp at he'
        rcases he' with rfl | rfl
        · exact hne rfl
        · exact hne (by decide))
    cases segs with
    | nil => simp [lookupPath, getNode] at hs
    | cons k rest =>
      cases rest with
      | nil =>
        simp only [lookupPath, getNode, entriesOf, mapIndex] at hs
        split at hs <;> simp at hs
      | cons k₂ rest =>
        have hent : entriesOf
            (mapIndex (entriesOf (some (Value.map [("bar", Value.str "2")]))) k) = [] := by
          by_cases hk : "bar" = k
          · simp [entriesOf, mapIndex, hk]
          · simp [entriesOf, mapIndex, hk]
        simp only [lookupPath] at hs
        rw [getNode, getNode_of_not_map k₂ rest _ hent] at hs
        simp at hs

/-- C2 (amended): hierarchical assembly and its scalar-vs-parent policy, for entries strictly
below the root. Let the flat set hold, for each of a non-empty list of pairwise distinct segment
paths s1..sn (n at least 1, every segment non-empty and free of "/"), the entry at the path
R/s1/.../sn with its value. Then the assembler returns a nested mapping in which (a) every entry
whose segment path is a strict prefix of another entry's appears only as a mapping node, its
scalar discarded, whose keys are exactly the next segments of the entries below it; (b) every
entry whose segment path is not a strict prefix of another's appears as the scalar leaf with its
value at its segment path; (c) a segment path that is a prefix of no entry's path holds
nothing. -/
theorem hierarchical_assembly (root : String) (es : List (List String × String))
    (hne : es ≠ [])
    (hsegs : ∀ e ∈ es, e.1 ≠ [] ∧ ∀ s ∈ e.1, s ≠ "" ∧ '/' ∉ s.data)
    (hdistinct : (es.map Prod.fst).Nodup) :
    ∃ tree, Assemble root (es.map (fun e => (entryPath root e.1, e.2))) = .ok tree ∧
      (∀ e ∈ es, (∃ e' ∈ es, e.1 <+: e'.1 ∧ e.1 ≠ e'.1) →
        ∃ cs, lookupPath tree e.1 = some (.map cs) ∧
          ∀ k, k ∈ mapKeys cs ↔ ∃ e' ∈ es, e.1 ++ [k] <+: e'.1) ∧
      (∀ e ∈ es, (¬ ∃ e' ∈ es, e.1 <+: e'.1 ∧ e.1 ≠ e'.1) →
        lookupPath tree e.1 = some (.str e.2)) ∧
      (∀ q, (¬ ∃ e ∈ es, q <+: e.1) → lookupPath tree q = none) := by
  have hfold : (sortEntries (es.map (fun e => (entryPath root e.1, e.2)))).foldl
      (fun m e => insertEntry m (relSegments root e.1) e.2) []
      = ((sortEntries (es.map (fun e => (entryPath root e.1, e.2)))).map
          (fun e => (relSegments root e.1, e.2))).foldl
          (fun m e => insertEntry m e.1 e.2) [] := by
    rw [List.foldl_map]
  have hback : (es.map (fun e => (entryPath root e.1, e.2))).map
      (fun e => (relSegments root e.1, e.2)) = es := by
    rw [List.map_map]
    conv_rhs => rw [← List.map_id es]
    apply List.map_congr_left
    intro e he
    simp [relSegments_entryPath root e.1 (hsegs e he).2]
  have hperm : ((sortEntries (es.map (fun e => (entryPath root e.1, e.2)))).map
      (fun e => (relSegments root e.1, e.2))).Perm es := by
    have := (perm_sortEntries (es.map (fun e => (entryPath root e.1, e.2)))).map
      (fun e => (relSegments root e.1, e.2))
    rwa [hback] at this
  have hnd : (((sortEntries (es.map (fun e => (entryPath root e.1, e.2)))).map
      (fun e => (relSegments root e.1, e.2))).map Prod.fst).Nodup :=
    ((hperm.map Prod.fst).nodup_iff).mpr hdistinct
  have hempty : (es.map (fun e => (entryPath root e.1, e.2))).isEmpty = false := by
    cases es with
    | nil => exact absurd rfl hne
    | cons e rest => rfl
  refine ⟨_, by simp only [Assemble, hempty, hfold]; rfl, ?_, ?_, ?_⟩
  · intro e _ hex
    obtain ⟨e', he', hpre, hneq⟩ := hex
    obtain ⟨cs, hcs⟩ := isMap_above_entry e.1 _ [] ⟨e', hperm.mem_iff.mpr he', hpre, hneq⟩
    refine ⟨cs, hcs, ?_⟩
    intro k
    have hchild := lookupPath_child _ cs e.1 k hcs
    have hk : e.1 ++ [k] ≠ [] := by simp
    constructor
    · intro hmem
      by_contra hno
      have hnone := none_of_unrelated (e.1 ++ [k]) hk _
        (fun ⟨x, hx, hc⟩ => hno ⟨x, hperm.mem_iff.mp hx, hc⟩)
      rw [hchild] at hnone
      exact (mapIndex_eq_none_iff cs k).mp hnone hmem
    · rintro ⟨x, hx, hc⟩
      have hsome := node_of_prefix (e.1 ++ [k]) hk _ hnd ⟨x, hperm.mem_iff.mpr hx, hc⟩
      rw [hchild] at hsome
      by_contra hmem
      exact hsome ((mapIndex_eq_none_iff cs k).mpr hmem)
  · intro e he hnot
    have hmem : (e.1, e.2) ∈ (sortEntries (es.map (fun e => (entryPath root e.1, e.2)))).map
        (fun e => (relSegments root e.1, e.2)) := hperm.mem_iff.mpr he
    apply leaf_of_no_descendant _ _ _ [] hmem hnd
    · intro x hx hc
      exact hnot ⟨x, hperm.mem_iff.mp hx, hc.1, hc.2⟩
    · rw [lookupPath_nil_of_ne e.1 (hsegs e he).1]
      simp
  · intro q hq
    have hqne : q ≠ [] := by
      rintro rfl
      cases es with
      | nil => exact hne rfl
      | cons e rest => exact hq ⟨e, List.mem_cons_self _ _, List.nil_prefix⟩
    exact none_of_unrelated q hqne _ (fun ⟨x, hx, hc⟩ => hq ⟨x, hperm.mem_iff.mp hx, hc⟩)

/-- Witness for C2 (amended): the entries /foo/bar=BAR, /foo/bar/a=A, /foo/bar/b=B, /foo/baz=BAZ
rooted at /foo. -/
theorem hierarchical_assembly_witness :
    ∃ tree, Assemble "/foo"
        [("/foo/bar", "BAR"), ("/foo/bar/a", "A"), ("/foo/bar/b", "B"), ("/foo/baz", "BAZ")]
        = .ok tree ∧
      (∀ e ∈ [(["bar"], "BAR"), (["bar", "a"], "A"), (["bar", "b"], "B"), (["baz"], "BAZ")],
        (∃ e' ∈ [(["bar"], "BAR"), (["bar", "a"], "A"), (["bar", "b"], "B"), (["baz"], "BAZ")],
          e.1 <+: e'.1 ∧ e.1 ≠ e'.1) →
        ∃ cs, lookupPath tree e.1 = some (.map cs) ∧
          ∀ k, k ∈ mapKeys cs ↔
            ∃ e' ∈ [(["bar"], "BAR"), (["bar", "a"], "A"), (["bar", "b"], "B"),
              (["baz"], "BAZ")], e.1 ++ [k] <+: e'.1) ∧
      (∀ e ∈ [(["bar"], "BAR"), (["bar", "a"], "A"), (["bar", "b"], "B"), (["baz"], "BAZ")],
        (¬ ∃ e' ∈ [(["bar"], "BAR"), (["bar", "a"], "A"), (["bar", "b"], "B"),
          (["baz"], "BAZ")], e.1 <+: e'.1 ∧ e.1 ≠ e'.1) →
        lookupPath tree e.1 = some (.str e.2)) ∧
      (∀ q, (¬ ∃ e ∈ [(["bar"], "BAR"), (["bar", "a"], "A"), (["bar", "b"], "B"),
          (["baz"], "BAZ")], q <+: e.1) → lookupPath tree q = none) :=
  hierarchical_assembly "/foo"
    [(["bar"], "BAR"), (["bar", "a"], "A"), (["bar", "b"], "B"), (["baz"], "BAZ")]
    (by decide) (by decide) (by decide)

/-- The result of the assembler on the entries of the unit test of `GetStringMap`. -/
theorem assemble_test_case :
    Assemble "/foo"
        [("/foo/bar", "BAR"), ("/foo/bar/a", "A"), ("/foo/bar/b", "B"), ("/foo/baz", "BAZ")]
      = .ok [("bar", .map [("a", .str "A"), ("b", .str "B")]), ("baz", .str "BAZ")] := by
  rfl

end ssm

end Vals
